import Mathlib

/-!
Verification of the dual-representation synchronization engine of the
tui.editor fork: a shallow embedding of `apps/editor/src/editorCore.ts`
(ToastUIEditorCore), `history/snapshotHistory.ts` (SnapshotHistory) and the
`wwUserEdit` notification path of `wysiwyg/wwEditor.ts`.

Machine integers (JavaScript numbers used as block indices and line numbers)
are embedded as `Int`; markdown text is embedded as `String`, with explicit
models of JavaScript's `String.prototype.split('\n')` and `Array.prototype.join('\n')`.
The markdown parser and the wysiwyg convertor are external collaborators whose
sources are not part of the synchronization core; they are modelled from the
spec where noted.
-/

namespace TuiEditor

/-- Editor mode (`EditorType` in the source): `markdown` or `wysiwyg`. -/
inductive EditorType where
  | markdown
  | wysiwyg
deriving DecidableEq

/-- `BlockRange` from editorCore.ts: an inclusive interval of top-level block
indices. JavaScript numbers are embedded as `Int`. -/
structure BlockRange where
  startIndex : Int
  endIndex : Int
deriving DecidableEq

/-- `WwBlockRange` (= `WwEditRange`) from editorCore.ts: the pair of pre-edit
and post-edit block-index intervals of one structured edit. -/
structure WwBlockRange where
  oldRange : BlockRange
  newRange : BlockRange
deriving DecidableEq

/-- `LineRange` from editorCore.ts: a 1-based inclusive markdown line range. -/
structure LineRange where
  startLine : Int
  endLine : Int
deriving DecidableEq

/-- `MdPatch` from editorCore.ts: replace the lines of `range` by `text`. -/
structure MdPatch where
  range : LineRange
  text : String
deriving DecidableEq

/-! ### Models of the JavaScript string primitives used by the source -/

/-- Model of JavaScript's `str.split('\n')` at the character-list level:
splits on every `'\n'`, never returns the empty list (`''.split('\n')` is
`['']`). -/
def splitCharList : List Char → List (List Char)
  | [] => [[]]
  | c :: cs =>
    if c = '\n' then [] :: splitCharList cs
    else
      match splitCharList cs with
      | [] => [[c]]
      | r :: rs => (c :: r) :: rs

/-- Model of JavaScript's `str.split('\n')`. -/
def splitStr (s : String) : List String :=
  (splitCharList s.data).map fun cs => String.mk cs

/-- Model of JavaScript's `lines.join('\n')`. -/
def joinStr (ls : List String) : String :=
  String.mk (List.intercalate ['\n'] (ls.map String.data))

/-- `splitLines` from editorCore.ts: like `split('\n')` except that the empty
string yields no lines at all. -/
def splitLines (text : String) : List String :=
  if text = "" then [] else splitStr text

/-- A string with no embedded newline character. -/
def noNL (s : String) : Prop := '\n' ∉ s.data

instance (s : String) : Decidable (noNL s) := by
  unfold noNL; infer_instance

/-! ### SnapshotHistory (`history/snapshotHistory.ts`)

The two stacks are JavaScript arrays pushed/popped at the tail; they are
embedded as Lean lists with the same orientation (last element = top).
The snapshot type is kept abstract: the history never inspects it. -/

/-- `SnapshotHistory` from snapshotHistory.ts: an undo stack and a redo stack. -/
structure SnapshotHistory (α : Type) where
  undoStack : List α
  redoStack : List α
deriving DecidableEq

namespace SnapshotHistory

/-- A fresh history: both stacks empty. -/
def empty {α} : SnapshotHistory α := ⟨[], []⟩

/-- `push`: append to the undo stack, clear the redo stack. -/
def push {α} (h : SnapshotHistory α) (s : α) : SnapshotHistory α :=
  ⟨h.undoStack ++ [s], []⟩

/-- `canUndo`: true iff the undo stack holds more than the floor snapshot. -/
def canUndo {α} (h : SnapshotHistory α) : Bool :=
  h.undoStack.length > 1

/-- `canRedo`: true iff the redo stack is non-empty. -/
def canRedo {α} (h : SnapshotHistory α) : Bool :=
  h.redoStack.length > 0

/-- `undo`: pop the top of the undo stack onto the redo stack and return the
new top of the undo stack (`null` when not `canUndo`). Returns the value
together with the updated history. -/
def undo {α} (h : SnapshotHistory α) : Option α × SnapshotHistory α :=
  if h.canUndo then
    match h.undoStack.getLast? with
    | some current =>
      (h.undoStack.dropLast.getLast?, ⟨h.undoStack.dropLast, h.redoStack ++ [current]⟩)
    | none => (none, h)
  else (none, h)

/-- `redo`: pop from the redo stack, push onto the undo stack and return it
(`null` when the redo stack is empty). -/
def redo {α} (h : SnapshotHistory α) : Option α × SnapshotHistory α :=
  if h.canRedo then
    match h.redoStack.getLast? with
    | some next =>
      (some next, ⟨h.undoStack ++ [next], h.redoStack.dropLast⟩)
    | none => (none, h)
  else (none, h)

/-- `size`: the two stack depths. -/
def size {α} (h : SnapshotHistory α) : Nat × Nat :=
  (h.undoStack.length, h.redoStack.length)

/-- Push a whole list of snapshots in order. -/
def pushAll {α} (h : SnapshotHistory α) (ss : List α) : SnapshotHistory α :=
  ss.foldl (fun acc s => acc.push s) h

/-- Iterate `undo` `n` times, collecting the returned values in order. -/
def undoTimes {α} : Nat → SnapshotHistory α → List (Option α) × SnapshotHistory α
  | 0, h => ([], h)
  | n + 1, h =>
    let step := h.undo
    let rest := undoTimes n step.2
    (step.1 :: rest.1, rest.2)

end SnapshotHistory

/-! ### Edit Range Tracker (editorCore.ts lines 784-826) -/

/-- `normalizeBlockRange`: reorder the two endpoints so that
`startIndex <= endIndex`. -/
def normalizeBlockRange (range : BlockRange) : BlockRange :=
  ⟨min range.startIndex range.endIndex, max range.startIndex range.endIndex⟩

/-- `rangesOverlapOrTouch`: `a.startIndex <= b.endIndex + 1 && b.startIndex <= a.endIndex + 1`. -/
def rangesOverlapOrTouch (a b : BlockRange) : Prop :=
  a.startIndex ≤ b.endIndex + 1 ∧ b.startIndex ≤ a.endIndex + 1

instance (a b : BlockRange) : Decidable (rangesOverlapOrTouch a b) := by
  unfold rangesOverlapOrTouch; infer_instance

/-- `mergeLineRange`: min of the starts, max of the ends. -/
def mergeLineRange (a b : BlockRange) : BlockRange :=
  ⟨min a.startIndex b.startIndex, max a.endIndex b.endIndex⟩

/-- One step of the `forEach` loop inside `addWwEditRange`: either absorb
`existing` into the accumulated incoming range or keep it. -/
def addWwEditRangeStep (acc : List WwBlockRange × WwBlockRange) (existing : WwBlockRange) :
    List WwBlockRange × WwBlockRange :=
  if rangesOverlapOrTouch existing.oldRange acc.2.oldRange ∨
      rangesOverlapOrTouch existing.newRange acc.2.newRange then
    (acc.1, ⟨mergeLineRange existing.oldRange acc.2.oldRange,
             mergeLineRange existing.newRange acc.2.newRange⟩)
  else
    (acc.1 ++ [existing], acc.2)

/-- `addWwEditRange` from editorCore.ts: normalize the incoming range, scan the
accumulated ranges once, merging each one whose `oldRange` or `newRange`
overlaps-or-touches the (growing) incoming range, and append the result. -/
def addWwEditRange (range : WwBlockRange) (pending : List WwBlockRange) :
    List WwBlockRange :=
  let next : WwBlockRange :=
    ⟨normalizeBlockRange range.oldRange, normalizeBlockRange range.newRange⟩
  let result := pending.foldl addWwEditRangeStep ([], next)
  result.1 ++ [result.2]

/-! ### Document model

Modelled from the spec: the StructuredTree and the two external collaborators
(the positional markdown parser and the wysiwyg-to-markdown convertor), whose
sources (`convertors/convertor.ts`, the toastmark parser internals, `mdEditor.ts`)
are not part of the synchronization core under verification. A top-level block
is represented by the non-empty list of non-blank markdown lines it serializes
to; a document is the list of its top-level blocks, and a serialized document
separates adjacent blocks by exactly one blank line. -/

/-- A top-level block, given by the markdown lines of its serialization. -/
abbrev Block := List String

/-- A structured document: the list of its top-level blocks. -/
abbrev Doc := List Block

/-- Well-formedness of a block: at least one line, no blank line, no embedded
newline inside a line. -/
def WFBlock (b : Block) : Prop :=
  b ≠ [] ∧ ∀ l ∈ b, l ≠ "" ∧ noNL l

/-- Well-formedness of a document: every block well-formed. -/
def WFDoc (d : Doc) : Prop := ∀ b ∈ d, WFBlock b

instance (b : Block) : Decidable (WFBlock b) := by
  unfold WFBlock; infer_instance

instance (d : Doc) : Decidable (WFDoc d) := by
  unfold WFDoc; infer_instance

/-- The lines of the full serialization: the blocks' lines with one blank
line between adjacent blocks. -/
def docLines (d : Doc) : List String :=
  List.intercalate [""] d

/-- Modelled from the spec: `convertor.toMarkdownText` — render a document
(or any sub-document) to markdown text. -/
def toMarkdownText (d : Doc) : String :=
  joinStr (docLines d)

/-- Scan a line list at the given 1-based line number, carrying the line span
of the currently open run of non-blank lines, and emit the line range of every
maximal run. -/
def lineRunsAux : List String → Option (Int × Int) → Int → List LineRange
  | [], none, _ => []
  | [], some run, _ => [⟨run.1, run.2⟩]
  | l :: ls, none, n =>
    if l = "" then lineRunsAux ls none (n + 1)
    else lineRunsAux ls (some (n, n)) (n + 1)
  | l :: ls, some run, n =>
    if l = "" then ⟨run.1, run.2⟩ :: lineRunsAux ls none (n + 1)
    else lineRunsAux ls (some (run.1, n)) (n + 1)

/-- Modelled from the spec: the positioned parse tree's top-level blocks of a
markdown string (`createToastMark` + walking the root's children) — the
maximal runs of non-blank lines, each with its 1-based inclusive source line
range (`parse(text) -> tree`, nodes exposing block order and line range). -/
def parseLineRanges (md : String) : List LineRange :=
  lineRunsAux (splitStr md) none 1

/-- Scan a line list carrying the lines of the currently open run of non-blank
lines, and emit every maximal run as a block. -/
def lineBlocksAux : List String → Option Block → List Block
  | [], none => []
  | [], some run => [run]
  | l :: ls, none =>
    if l = "" then lineBlocksAux ls none
    else lineBlocksAux ls (some [l])
  | l :: ls, some run =>
    if l = "" then run :: lineBlocksAux ls none
    else lineBlocksAux ls (some (run ++ [l]))

/-- Modelled from the spec: deriving a StructuredTree from markdown text
(`convertor.toWysiwygModel` applied to the parse of the text). -/
def parseDoc (md : String) : Doc :=
  lineBlocksAux (splitStr md) none

/-- `getMdBlockByIndex` from editorCore.ts: walk the root's children `index`
steps (a non-positive index stops at the first child); `null` when the walk
runs off the end. -/
def getMdBlockByIndex (blocks : List LineRange) (index : Int) : Option LineRange :=
  blocks.get? (max index 0).toNat

/-- `getBlockLineRangeForIndexRange` from editorCore.ts: resolve a block-index
interval against the parsed top-level blocks to a line range; `null` when
either endpoint fails to resolve. -/
def getBlockLineRangeForIndexRange (range : BlockRange) (blocks : List LineRange) :
    Option LineRange :=
  match getMdBlockByIndex blocks range.startIndex, getMdBlockByIndex blocks range.endIndex with
  | some startNode, some endNode =>
    some ⟨startNode.startLine, max endNode.endLine startNode.startLine⟩
  | _, _ => none

/-- The inputs on which `serializeWwBlockRange` in editorCore.ts raises a
`RangeError` instead of returning: the document is non-empty, the bounds check
(`startIndex < 0 || endIndex >= childCount`) passes, but the range is inverted
with its start at or beyond the child count, so the collection loop's very
first `doc.child(startIndex)` access is out of range and ProseMirror's
`Node.child` throws. On every other input the function returns normally. -/
def serializeWwBlockRangeThrows (doc : Doc) (range : BlockRange) : Prop :=
  doc.length ≠ 0 ∧
  ¬ (range.startIndex < 0 ∨ range.endIndex ≥ (doc.length : Int)) ∧
  range.endIndex < range.startIndex ∧ ((doc.length : Int)) ≤ range.startIndex

instance (doc : Doc) (range : BlockRange) :
    Decidable (serializeWwBlockRangeThrows doc range) := by
  unfold serializeWwBlockRangeThrows; infer_instance

/-- `serializeWwBlockRange` from editorCore.ts, on the inputs where it
returns: an empty document serializes to `''`; a range with negative start or
end at/past the child count is `null`; otherwise the selected top-level
children are rendered as a self-contained document (an inverted range whose
start is still within the child count collects exactly the start block, as in
the source's `i = startIndex .. max(endIndex, startIndex)` loop). On the
inputs characterized by `serializeWwBlockRangeThrows` the source throws a
`RangeError` out of the flush instead — this total model is only appealed to
under hypotheses that exclude those inputs (the source's own
`if (!nodes.length) return ''` branch is unreachable there, since the loop
always pushes at least one child or throws). -/
def serializeWwBlockRange (doc : Doc) (range : BlockRange) : Option String :=
  if doc.length = 0 then some ""
  else if range.startIndex < 0 ∨ range.endIndex ≥ (doc.length : Int) then none
  else
    let lastIndex := max range.endIndex range.startIndex
    let nodes := (doc.drop range.startIndex.toNat).take (lastIndex - range.startIndex + 1).toNat
    if nodes.isEmpty then some ""
    else some (toMarkdownText nodes)

/-! ### Markdown patch application (editorCore.ts lines 890-927) -/

/-- The clamped start position of `Array.prototype.splice`: a negative start
counts from the end (bounded below by 0), a positive one is bounded by the
length. -/
def jsSpliceStart (len start : Int) : Nat :=
  (if start < 0 then max (len + start) 0 else min start len).toNat

/-- The clamped delete count of `Array.prototype.splice`. -/
def jsSpliceCount (len s : Nat) (deleteCount : Int) : Nat :=
  min (max deleteCount 0).toNat (len - s)

/-- Model of JavaScript's `Array.prototype.splice(start, deleteCount, ...items)`
restricted to its return-free use in `applyMdPatches`: start and delete count
are clamped to the array bounds. -/
def jsSplice {α} (l : List α) (start deleteCount : Int) (items : List α) : List α :=
  l.take (jsSpliceStart l.length start) ++ items ++
    l.drop (jsSpliceStart l.length start +
      jsSpliceCount l.length (jsSpliceStart l.length start) deleteCount)

/-- The ascending-`startLine` (stable) ordering used by `applyMdPatches`. -/
def patchLE (a b : MdPatch) : Prop :=
  a.range.startLine ≤ b.range.startLine

instance : DecidableRel patchLE := by
  unfold patchLE; infer_instance

/-- One iteration of the `ordered.forEach` loop of `applyMdPatches`: splice the
patch at its offset-adjusted position and update the running line offset. -/
def applyMdPatchStep (acc : List String × Int) (patch : MdPatch) : List String × Int :=
  let startIndex := patch.range.startLine - 1 + acc.2
  let endIndex := patch.range.endLine - 1 + acc.2
  let replacementLines := splitLines patch.text
  (jsSplice acc.1 startIndex (endIndex - startIndex + 1) replacementLines,
   acc.2 + replacementLines.length - (endIndex - startIndex + 1))

/-- `applyMdPatches` from editorCore.ts: split the markdown into lines, apply
the patches in ascending `startLine` order with a running line-count offset,
and join the lines back. -/
def applyMdPatches (md : String) (patches : List MdPatch) : String :=
  let lines := splitStr md
  let ordered := patches.insertionSort patchLE
  let final := ordered.foldl applyMdPatchStep (lines, 0)
  if final.1.isEmpty then "" else joinStr final.1

/-- `clampMdPos` from editorCore.ts: clamp a (line, column) pair into the valid
positions of a markdown string. -/
def clampMdPos (md : String) (pos : Int × Int) : Int × Int :=
  let lines := splitStr md
  let lineIndex := min (max pos.1 1) (max (lines.length : Int) 1)
  let lineText := (lines.get? (lineIndex - 1).toNat).getD ""
  let maxCh := max ((lineText.length : Int) + 1) 1
  let ch := min (max pos.2 1) maxCh
  (lineIndex, ch)

/-! ### Dual-Representation Coordinator (ToastUIEditorCore)

The coordinator's private fields, as read and written by the operations the
claims are about. The markdown editor and the wysiwyg editor are reduced to
the state the coordinator exchanges with them: the markdown editor's text and
the wysiwyg editor's document model. Snapshots are reduced to the markdown
text they record; the selection, scroll position and timestamp fields are
environment inputs that no verified operation inspects. -/

/-- The core-determined content of a `Snapshot` (its `md` field). -/
structure CoreSnapshot where
  md : String
deriving DecidableEq

/-- The coordinator state: `canonicalMd`, the current mode, the structured
dirty flag, the pending edit ranges, the baseline document, the debounce-timer
handle (abstracted to whether a timer is pending), the snapshot history, the
markdown editor's text and the wysiwyg editor's document. -/
structure EditorState where
  canonicalMd : String
  mode : EditorType
  wwDirty : Bool
  pendingWwRanges : List WwBlockRange
  wwBaselineDoc : Option Doc
  wwSerializeTimer : Bool
  snapshotHistory : SnapshotHistory CoreSnapshot
  mdText : String
  wwDoc : Doc
deriving DecidableEq

namespace EditorState

/-- `pushSnapshot`: push a snapshot of the given markdown. -/
def pushSnapshot (S : EditorState) (md : String) : EditorState :=
  { S with snapshotHistory := S.snapshotHistory.push ⟨md⟩ }

/-- `clearPendingWwEdits`: cancel a pending timer and drop all pending ranges. -/
def clearPendingWwEdits (S : EditorState) : EditorState :=
  { S with wwSerializeTimer := false, pendingWwRanges := [] }

/-- `scheduleWwSerialize`: cancel any pending timer and start a new one. -/
def scheduleWwSerialize (S : EditorState) : EditorState :=
  { S with wwSerializeTimer := true }

/-- The guard of the baseline no-op check in `flushSerialize`:
`baseline && wwDoc.eq(baseline)`. -/
def baselineNoop (S : EditorState) : Prop :=
  match S.wwBaselineDoc with
  | some baseline => S.wwDoc = baseline
  | none => False

instance (S : EditorState) : Decidable (baselineNoop S) := by
  unfold baselineNoop
  match S.wwBaselineDoc with
  | some _ => infer_instance
  | none => infer_instance

/-- The `sorted` constant of `flushSerialize`: the pending ranges in ascending
`oldRange.startIndex` order. -/
def flushSorted (S : EditorState) : List WwBlockRange :=
  S.pendingWwRanges.insertionSort
    fun a b => a.oldRange.startIndex ≤ b.oldRange.startIndex

/-- The per-range resolution results of `flushSerialize`: the old line range
against the parse of the canonical markdown, and the serialization of the new
block range. -/
def flushResults (S : EditorState) : List (Option LineRange × Option String) :=
  (flushSorted S).map fun range =>
    (getBlockLineRangeForIndexRange range.oldRange (parseLineRanges S.canonicalMd),
     serializeWwBlockRange S.wwDoc range.newRange)

/-- The `shouldSerializeAll` flag of `flushSerialize`: some range failed to
resolve. -/
def flushShouldSerializeAll (S : EditorState) : Bool :=
  (flushResults S).any fun pr => pr.1.isNone || pr.2.isNone

/-- The `patches` constant of `flushSerialize`: one `MdPatch` per resolved
old range (`text || ''` for a null serialization). -/
def flushPatches (S : EditorState) : List MdPatch :=
  (flushResults S).filterMap fun pr =>
    match pr.1 with
    | some patchRange => some { range := patchRange, text := pr.2.getD "" }
    | none => none

/-- `flushSerialize` from editorCore.ts: with no pending ranges, keep the
canonical markdown; when the document equals the stored baseline, clear the
pending edits, lower the dirty flag and keep the canonical markdown; otherwise
resolve every pending range against the parse of the canonical markdown and
the current document, falling back to full serialization when any range is
unresolvable, else apply the patches. Returns the updated state and the next
markdown. -/
def flushSerialize (S : EditorState) : EditorState × String :=
  if S.pendingWwRanges.isEmpty then (S, S.canonicalMd)
  else if baselineNoop S then
    ({ S.clearPendingWwEdits with wwDirty := false }, S.canonicalMd)
  else if flushShouldSerializeAll S then
    ({ S with pendingWwRanges := [] }, toMarkdownText S.wwDoc)
  else
    ({ S with pendingWwRanges := [] }, applyMdPatches S.canonicalMd (flushPatches S))

/-- `setWwBaseline`: capture the current document as baseline, but only in
wysiwyg mode. -/
def setWwBaseline (S : EditorState) : EditorState :=
  if S.mode = EditorType.wysiwyg then { S with wwBaselineDoc := some S.wwDoc } else S

/-- `flushSerializeAndMaybePush` from editorCore.ts: run `flushSerialize`; when
the result differs from the canonical markdown, commit it and push a snapshot;
lower the dirty flag and recapture the baseline. -/
def flushSerializeAndMaybePush (S : EditorState) : EditorState :=
  let flushed := S.flushSerialize
  let S1 := flushed.1
  let nextMd := flushed.2
  let S2 :=
    if nextMd ≠ S1.canonicalMd then
      { S1.pushSnapshot nextMd with canonicalMd := nextMd }
    else S1
  ({ S2 with wwDirty := false }).setWwBaseline

/-- `flushPendingWwSerialize` from editorCore.ts: cancel a pending timer, and
run the flush only when the structured surface is dirty. -/
def flushPendingWwSerialize (S : EditorState) : EditorState :=
  let S1 := { S with wwSerializeTimer := false }
  if S1.wwDirty then S1.flushSerializeAndMaybePush else S1

/-- The `'change'` listener for `editorType === 'markdown'` (editorCore.ts
constructor): take over the markdown editor's text as canonical, lower the
dirty flag, and push a snapshot unless snapshots are suppressed. -/
def mdChangeEvent (S : EditorState) (suppressSnapshot : Bool) : EditorState :=
  let S1 := { S with canonicalMd := S.mdText, wwDirty := false }
  if suppressSnapshot then S1 else S1.pushSnapshot S1.canonicalMd

/-- `setMarkdown` from editorCore.ts: hand the text to the markdown editor
(whose change event updates the canonical markdown), and in wysiwyg mode also
re-derive and replace the structured document. `suppressSnapshot` models
`runProgrammatic` around the call. Modelled from the spec:
`mdEditor.setMarkdown` stores the text and emits the markdown change event. -/
def setMarkdown (S : EditorState) (markdown : String) (suppressSnapshot : Bool) :
    EditorState :=
  let S1 := mdChangeEvent { S with mdText := markdown } suppressSnapshot
  if S1.mode = EditorType.wysiwyg then { S1 with wwDoc := parseDoc markdown } else S1

/-- `changeMode` from editorCore.ts: no-op on the current mode; switching to
wysiwyg re-derives the document from the markdown editor's parse tree, clears
pending edits and captures a baseline; switching to markdown flushes pending
structured edits first, then programmatically writes the canonical markdown
into the markdown editor. -/
def changeMode (S : EditorState) (mode : EditorType) : EditorState :=
  if S.mode = mode then S
  else
    let S0 := { S with mode := mode }
    if mode = EditorType.wysiwyg then
      let wwNode := parseDoc S0.mdText
      let S1 := ({ S0 with wwDirty := false }).clearPendingWwEdits
      ({ S1 with wwDoc := wwNode }).setWwBaseline
    else
      let S1 :=
        if S0.wwDirty then S0.flushPendingWwSerialize.clearPendingWwEdits else S0
      mdChangeEvent { S1 with mdText := S1.canonicalMd } true

/-- `getMarkdown` from editorCore.ts: in markdown mode return the canonical
markdown; in wysiwyg mode force-flush pending structured edits first. Returns
the text together with the updated state. -/
def getMarkdown (S : EditorState) : String × EditorState :=
  if S.mode = EditorType.markdown then (S.canonicalMd, S)
  else
    let S1 := S.flushPendingWwSerialize
    (S1.canonicalMd, S1)

/-- `reset` from editorCore.ts: programmatically empty both editors (the
markdown change event runs suppressed), clear pending edits, empty the
canonical markdown, lower the dirty flag and discard the baseline. -/
def reset (S : EditorState) : EditorState :=
  let S1 := mdChangeEvent { S with wwDoc := [], mdText := "" } true
  let S2 := S1.clearPendingWwEdits
  { S2 with canonicalMd := "", wwDirty := false, wwBaselineDoc := none }

end EditorState

/-! ### The `wwUserEdit` notification (wwEditor.ts `dispatchTransaction` and the
editorCore.ts constructor listener) -/

/-- The payload of the `wwUserEdit` event. The editorCore listener types it as
`WwEditRange` (`oldRange`/`newRange`); the wwEditor emitter constructs an
object literal with `mdBlockIds`, `wwRange` and `hasMissingId`. All fields are
optional at runtime, so each is embedded as an `Option`. -/
structure WwUserEditPayload where
  oldRange : Option BlockRange
  newRange : Option BlockRange
  mdBlockIds : Option (List Int)
  wwRange : Option BlockRange
  hasMissingId : Option Bool
deriving DecidableEq

/-- The payload built at the `wwUserEdit` emit sites of wwEditor.ts
`dispatchTransaction`: `{ mdBlockIds, wwRange, hasMissingId }` — no
`oldRange` or `newRange` field. -/
def emittedWwUserEditPayload (mdBlockIds : List Int) (wwRange : BlockRange)
    (hasMissingId : Bool) : WwUserEditPayload :=
  ⟨none, none, some mdBlockIds, some wwRange, some hasMissingId⟩

/-- The `wwUserEdit` listener from the editorCore.ts constructor: set the dirty
flag, record the payload's `oldRange`/`newRange` pair if present, and restart
the debounce timer. Reading `startIndex` of a missing `oldRange`/`newRange`
(inside `normalizeBlockRange`) raises a `TypeError`; the error case carries the
state as already mutated when the exception escapes. -/
def wwUserEditListener (payload : Option WwUserEditPayload) (S : EditorState) :
    Except (String × EditorState) EditorState :=
  let S1 := { S with wwDirty := true }
  match payload with
  | none => Except.ok S1.scheduleWwSerialize
  | some range =>
    match range.oldRange, range.newRange with
    | some oldRange, some newRange =>
      Except.ok (EditorState.scheduleWwSerialize
        { S1 with pendingWwRanges := addWwEditRange ⟨oldRange, newRange⟩ S1.pendingWwRanges })
    | _, _ =>
      Except.error ("TypeError: cannot read startIndex of undefined", S1)

/-! ### Basic lemmas -/

theorem splitCharList_ne_nil (cs : List Char) : splitCharList cs ≠ [] := by
  match cs with
  | [] => simp [splitCharList]
  | c :: cs =>
    unfold splitCharList
    split
    · simp
    · match splitCharList cs with
      | [] => simp
      | r :: rs => simp

theorem splitStr_ne_nil (s : String) : splitStr s ≠ [] := by
  unfold splitStr
  simp [splitCharList_ne_nil]

theorem one_le_splitStr_length (s : String) : 1 ≤ (splitStr s).length := by
  have h := splitStr_ne_nil s
  cases hs : splitStr s with
  | nil => exact absurd hs h
  | cons a l => simp

/-! ### C9: position clamping -/

/-- C9. For every markdown string `md` and every `(line, column)` input,
`clampMdPos` returns a valid position of `md`: the line lands in
`[1, lineCount]`, the column in `[1, length of the resolved line + 1]`;
non-positive inputs yield the minimum valid position `(1, 1)`, and a line
beyond the line count resolves to the last line. (The function is total, so it
never throws.) -/
theorem clampMdPos_valid (md : String) (pos : Int × Int) :
    1 ≤ (clampMdPos md pos).1 ∧
    (clampMdPos md pos).1 ≤ ((splitStr md).length : Int) ∧
    1 ≤ (clampMdPos md pos).2 ∧
    (clampMdPos md pos).2 ≤
      ((((splitStr md).get? ((clampMdPos md pos).1 - 1).toNat).getD "").length : Int) + 1 ∧
    (pos.1 ≤ 0 ∧ pos.2 ≤ 0 → clampMdPos md pos = (1, 1)) ∧
    (((splitStr md).length : Int) < pos.1 →
      (clampMdPos md pos).1 = ((splitStr md).length : Int)) := by
  have hlen : 1 ≤ ((splitStr md).length : Int) := by
    exact_mod_cast one_le_splitStr_length md
  unfold clampMdPos
  simp only
  have hmax : max ((splitStr md).length : Int) 1 = ((splitStr md).length : Int) := by omega
  rw [hmax]
  refine ⟨by omega, by omega, by omega, ?_, ?_, ?_⟩
  · have : min (max pos.2 1)
        (max (((((splitStr md).get? (min (max pos.1 1) ((splitStr md).length : Int) - 1).toNat).getD
          "").length : Int) + 1) 1) ≤
        ((((splitStr md).get? (min (max pos.1 1) ((splitStr md).length : Int) - 1).toNat).getD
          "").length : Int) + 1 := by
      omega
    exact this
  · intro h
    have h1 : max pos.1 1 = 1 := by omega
    have h2 : max pos.2 1 = 1 := by omega
    rw [h1, h2]
    have h3 : min 1 ((splitStr md).length : Int) = 1 := by omega
    rw [h3]
    simp only [Prod.mk.injEq]
    constructor
    · trivial
    · omega
  · intro h
    omega

/-! ### C3: the snapshot-history stack law -/

theorem pushAll_from_empty {α : Type} (ss : List α) :
    ∀ u : List α, SnapshotHistory.pushAll ⟨u, []⟩ ss = ⟨u ++ ss, []⟩ := by
  induction ss with
  | nil => intro u; simp [SnapshotHistory.pushAll]
  | cons s ss ih =>
    intro u
    have step : SnapshotHistory.pushAll (⟨u, []⟩ : SnapshotHistory α) (s :: ss) =
        SnapshotHistory.pushAll ⟨u ++ [s], []⟩ ss := rfl
    rw [step, ih]
    simp

theorem undo_concat {α : Type} (ys : List α) (a : α) (r : List α) (hys : ys ≠ []) :
    SnapshotHistory.undo ⟨ys ++ [a], r⟩ = (ys.getLast?, ⟨ys, r ++ [a]⟩) := by
  have hc : SnapshotHistory.canUndo (⟨ys ++ [a], r⟩ : SnapshotHistory α) = true := by
    unfold SnapshotHistory.canUndo
    cases ys with
    | nil => exact absurd rfl hys
    | cons y ys => simp
  unfold SnapshotHistory.undo
  simp only [hc, if_true]
  rw [List.getLast?_concat]
  simp [List.dropLast_concat]

theorem reverse_tail_eq_dropLast_reverse {α : Type} (l : List α) :
    l.reverse.tail = l.dropLast.reverse := by
  rcases List.eq_nil_or_concat l with h | ⟨ys, b, h⟩
  · simp [h]
  · subst h
    simp [List.dropLast_concat]

theorem undoTimes_spec {α : Type} :
    ∀ (k : Nat) (u r : List α), k < u.length →
    SnapshotHistory.undoTimes k ⟨u, r⟩ =
      ((u.reverse.tail.take k).map some,
       ⟨u.take (u.length - k), r ++ (u.drop (u.length - k)).reverse⟩) := by
  intro k
  induction k with
  | zero =>
    intro u r _
    simp [SnapshotHistory.undoTimes]
  | succ k ih =>
    intro u r hk
    have hu : u ≠ [] := by
      intro h; subst h; simp at hk
    rcases List.eq_nil_or_concat u with h | ⟨ys, a, h⟩
    · exact absurd h hu
    rw [List.concat_eq_append] at h
    subst h
    have hys : ys ≠ [] := by
      intro h; subst h; simp at hk
    have hk' : k < ys.length := by
      have := hk; simp at this; omega
    have step : SnapshotHistory.undoTimes (k + 1) (⟨ys ++ [a], r⟩ : SnapshotHistory α) =
        ((SnapshotHistory.undo ⟨ys ++ [a], r⟩).1 ::
          (SnapshotHistory.undoTimes k (SnapshotHistory.undo ⟨ys ++ [a], r⟩).2).1,
         (SnapshotHistory.undoTimes k (SnapshotHistory.undo ⟨ys ++ [a], r⟩).2).2) := rfl
    rw [step, undo_concat ys a r hys]
    simp only
    rw [ih ys (r ++ [a]) hk']
    simp only [Prod.mk.injEq, SnapshotHistory.mk.injEq]
    refine ⟨?_, ?_, ?_⟩
    · -- returned values
      rcases List.eq_nil_or_concat ys with h | ⟨zs, b, h⟩
      · exact absurd h hys
      rw [List.concat_eq_append] at h
      subst h
      simp [List.getLast?_concat, List.take_succ_cons]
    · -- resulting undo stack
      have hl : (ys ++ [a]).length - (k + 1) = ys.length - k := by simp
      rw [hl]
      exact (List.take_append_of_le_length (by omega)).symm
    · -- resulting redo stack
      have hl : (ys ++ [a]).length - (k + 1) = ys.length - k := by simp
      rw [hl, List.drop_append_of_le_length (by omega)]
      simp

/-- C3. For every non-empty list of snapshots pushed into a fresh
`SnapshotHistory`: calling `undo` `N-1` times returns the previously pushed
snapshots in reverse order ending with the first (floor) snapshot, after which
`canUndo` is false and a further `undo` returns `null`; after any `push` the
redo stack is empty, so `redo` returns `null`; and `undo`/`redo` only move
snapshots between the two stacks (the combined stack contents are preserved,
and the snapshot type is abstract, so contents are never modified). -/
theorem snapshotHistory_stack_law {α : Type} (ss : List α) (hss : ss ≠ []) :
    (SnapshotHistory.undoTimes (ss.length - 1)
        (SnapshotHistory.pushAll SnapshotHistory.empty ss)).1
      = ss.dropLast.reverse.map some ∧
    (SnapshotHistory.undoTimes (ss.length - 1)
        (SnapshotHistory.pushAll SnapshotHistory.empty ss)).2.canUndo = false ∧
    ((SnapshotHistory.undoTimes (ss.length - 1)
        (SnapshotHistory.pushAll SnapshotHistory.empty ss)).2.undo).1 = none ∧
    (∀ (h : SnapshotHistory α) (s : α),
      (h.push s).redoStack = [] ∧ ((h.push s).redo).1 = none) ∧
    (∀ h : SnapshotHistory α,
      ((h.undo).2.undoStack ++ (h.undo).2.redoStack).Perm (h.undoStack ++ h.redoStack) ∧
      ((h.redo).2.undoStack ++ (h.redo).2.redoStack).Perm (h.undoStack ++ h.redoStack)) := by
  have hlen : 1 ≤ ss.length := by
    cases ss with
    | nil => exact absurd rfl hss
    | cons a l => simp
  have hpush : SnapshotHistory.pushAll (SnapshotHistory.empty : SnapshotHistory α) ss
      = ⟨ss, []⟩ := by
    have := pushAll_from_empty ss ([] : List α)
    simpa [SnapshotHistory.empty] using this
  have hspec := undoTimes_spec (ss.length - 1) ss ([] : List α) (by omega)
  refine ⟨?_, ?_, ?_, ?_, ?_⟩
  · rw [hpush, hspec]
    simp only
    rw [reverse_tail_eq_dropLast_reverse]
    have : ss.dropLast.reverse.length = ss.length - 1 := by
      simp [List.length_dropLast]
    rw [List.take_of_length_le (le_of_eq this)]
  · rw [hpush, hspec]
    simp only [SnapshotHistory.canUndo]
    have h1 : (ss.take (ss.length - (ss.length - 1))).length = 1 := by
      rw [List.length_take]; omega
    simp [h1]
  · rw [hpush, hspec]
    have h1 : (ss.take (ss.length - (ss.length - 1))).length = 1 := by
      rw [List.length_take]; omega
    simp [SnapshotHistory.undo, SnapshotHistory.canUndo, h1]
  · intro h s
    constructor
    · rfl
    · simp [SnapshotHistory.redo, SnapshotHistory.push, SnapshotHistory.canRedo]
  · intro h
    constructor
    · by_cases hc : h.canUndo
      · unfold SnapshotHistory.undo
        rw [if_pos hc]
        have hne : h.undoStack ≠ [] := by
          intro hnil
          simp [SnapshotHistory.canUndo, hnil] at hc
        rcases List.eq_nil_or_concat h.undoStack with hnil | ⟨ys, a, hconcat⟩
        · exact absurd hnil hne
        rw [List.concat_eq_append] at hconcat
        rw [hconcat]
        rw [List.getLast?_concat]
        simp only [List.dropLast_concat]
        simpa [List.append_assoc] using
          List.Perm.append_left ys (@List.perm_append_comm _ h.redoStack [a])
      · unfold SnapshotHistory.undo
        rw [if_neg hc]
    · by_cases hc : h.canRedo
      · unfold SnapshotHistory.redo
        rw [if_pos hc]
        have hne : h.redoStack ≠ [] := by
          intro hnil
          simp [SnapshotHistory.canRedo, hnil] at hc
        rcases List.eq_nil_or_concat h.redoStack with hnil | ⟨zs, b, hconcat⟩
        · exact absurd hnil hne
        rw [List.concat_eq_append] at hconcat
        rw [hconcat]
        rw [List.getLast?_concat]
        simp only [List.dropLast_concat]
        simpa [List.append_assoc] using
          List.Perm.append_left h.undoStack (@List.perm_append_comm _ [b] zs)
      · unfold SnapshotHistory.redo
        rw [if_neg hc]

/-! ### C7: edit-range recording and merging -/

/-- `outer` contains `inner` as block-index intervals. -/
def coversRange (outer inner : BlockRange) : Prop :=
  outer.startIndex ≤ inner.startIndex ∧ inner.endIndex ≤ outer.endIndex

theorem coversRange_trans {a b c : BlockRange} (h1 : coversRange a b) (h2 : coversRange b c) :
    coversRange a c := by
  unfold coversRange at *
  omega

theorem touch_mono {e b b' : BlockRange} (h : rangesOverlapOrTouch e b)
    (hc : coversRange b' b) : rangesOverlapOrTouch e b' := by
  unfold rangesOverlapOrTouch coversRange at *
  omega

theorem addWwEditRangeStep_covers (acc : List WwBlockRange × WwBlockRange)
    (e : WwBlockRange) :
    coversRange (addWwEditRangeStep acc e).2.oldRange acc.2.oldRange ∧
    coversRange (addWwEditRangeStep acc e).2.newRange acc.2.newRange := by
  unfold addWwEditRangeStep
  split
  · unfold coversRange mergeLineRange
    constructor <;> constructor <;> simp
  · exact ⟨⟨le_refl _, le_refl _⟩, ⟨le_refl _, le_refl _⟩⟩

theorem foldl_addWwEditRangeStep_covers (pending : List WwBlockRange) :
    ∀ (kept : List WwBlockRange) (next : WwBlockRange),
    coversRange (pending.foldl addWwEditRangeStep (kept, next)).2.oldRange next.oldRange ∧
    coversRange (pending.foldl addWwEditRangeStep (kept, next)).2.newRange next.newRange := by
  induction pending with
  | nil =>
    intro kept next
    exact ⟨⟨le_refl _, le_refl _⟩, ⟨le_refl _, le_refl _⟩⟩
  | cons p rest ih =>
    intro kept next
    have hstep := addWwEditRangeStep_covers (kept, next) p
    have hrest := ih (addWwEditRangeStep (kept, next) p).1 (addWwEditRangeStep (kept, next) p).2
    constructor
    · exact coversRange_trans hrest.1 hstep.1
    · exact coversRange_trans hrest.2 hstep.2

theorem foldl_addWwEditRangeStep_length (pending : List WwBlockRange) :
    ∀ (kept : List WwBlockRange) (next : WwBlockRange),
    (pending.foldl addWwEditRangeStep (kept, next)).1.length ≤
      kept.length + pending.length := by
  induction pending with
  | nil => intro kept next; simp
  | cons p rest ih =>
    intro kept next
    have h := ih (addWwEditRangeStep (kept, next) p).1 (addWwEditRangeStep (kept, next) p).2
    have hstep : (addWwEditRangeStep (kept, next) p).1.length ≤ kept.length + 1 := by
      unfold addWwEditRangeStep
      split <;> simp
    calc ((p :: rest).foldl addWwEditRangeStep (kept, next)).1.length
        = (rest.foldl addWwEditRangeStep (addWwEditRangeStep (kept, next) p)).1.length := by
          rfl
      _ ≤ (addWwEditRangeStep (kept, next) p).1.length + rest.length := h
      _ ≤ kept.length + 1 + rest.length := by omega
      _ = kept.length + (p :: rest).length := by simp; omega

theorem foldl_addWwEditRangeStep_absorb (pending : List WwBlockRange) :
    ∀ (kept : List WwBlockRange) (next e : WwBlockRange), e ∈ pending →
    (rangesOverlapOrTouch e.oldRange next.oldRange ∨
     rangesOverlapOrTouch e.newRange next.newRange) →
    (pending.foldl addWwEditRangeStep (kept, next)).1.length + 1 ≤
        kept.length + pending.length ∧
    coversRange (pending.foldl addWwEditRangeStep (kept, next)).2.oldRange e.oldRange ∧
    coversRange (pending.foldl addWwEditRangeStep (kept, next)).2.newRange e.newRange := by
  induction pending with
  | nil => intro kept next e he _; simp at he
  | cons p rest ih =>
    intro kept next e he htouch
    rcases List.mem_cons.mp he with rfl | hrest
    · -- the touching range is the head: it is absorbed by this very step
      have hcond : rangesOverlapOrTouch e.oldRange next.oldRange ∨
          rangesOverlapOrTouch e.newRange next.newRange := htouch
      have hstep : addWwEditRangeStep (kept, next) e =
          (kept, ⟨mergeLineRange e.oldRange next.oldRange,
                  mergeLineRange e.newRange next.newRange⟩) := by
        unfold addWwEditRangeStep
        rw [if_pos hcond]
      have hfold : (e :: rest).foldl addWwEditRangeStep (kept, next) =
          rest.foldl addWwEditRangeStep (addWwEditRangeStep (kept, next) e) := rfl
      rw [hfold, hstep]
      have hlen := foldl_addWwEditRangeStep_length rest kept
        ⟨mergeLineRange e.oldRange next.oldRange, mergeLineRange e.newRange next.newRange⟩
      have hcov := foldl_addWwEditRangeStep_covers rest kept
        ⟨mergeLineRange e.oldRange next.oldRange, mergeLineRange e.newRange next.newRange⟩
      refine ⟨by simp at hlen ⊢; omega, ?_, ?_⟩
      · refine coversRange_trans hcov.1 ?_
        unfold coversRange mergeLineRange
        constructor <;> simp
      · refine coversRange_trans hcov.2 ?_
        unfold coversRange mergeLineRange
        constructor <;> simp
    · -- the touching range sits later: the accumulated range only grows
      have hstep := addWwEditRangeStep_covers (kept, next) p
      have htouch' : rangesOverlapOrTouch e.oldRange
            (addWwEditRangeStep (kept, next) p).2.oldRange ∨
          rangesOverlapOrTouch e.newRange (addWwEditRangeStep (kept, next) p).2.newRange := by
        rcases htouch with h | h
        · exact Or.inl (touch_mono h hstep.1)
        · exact Or.inr (touch_mono h hstep.2)
      have hkept : (addWwEditRangeStep (kept, next) p).1.length ≤ kept.length + 1 := by
        unfold addWwEditRangeStep
        split <;> simp
      have := ih (addWwEditRangeStep (kept, next) p).1 (addWwEditRangeStep (kept, next) p).2
        e hrest htouch'
      have hfold : (p :: rest).foldl addWwEditRangeStep (kept, next) =
          rest.foldl addWwEditRangeStep (addWwEditRangeStep (kept, next) p) := rfl
      rw [hfold]
      refine ⟨?_, this.2.1, this.2.2⟩
      have h1 := this.1
      simp at h1 ⊢
      omega

/-- C7. Recording an `EditRange` normalizes both intervals (start at most end);
recording into an empty set stores exactly the normalized range; against one
accumulated range, the overlap-or-touch test on `oldRange` or `newRange`
decides between merging (minimum of starts, maximum of ends, independently for
`oldRange` and `newRange`) and keeping both; in general every accumulated range
that overlaps-or-touches the incoming one is absorbed into the final merged
range (the set does not grow and the merged range spans it); and recording
`oldRange` `[0,2]` then `[3,5]` leaves exactly the single range `[0,5]`. -/
theorem addWwEditRange_spec :
    (∀ br : BlockRange, (normalizeBlockRange br).startIndex ≤ (normalizeBlockRange br).endIndex) ∧
    (∀ r : WwBlockRange, addWwEditRange r [] =
      [⟨normalizeBlockRange r.oldRange, normalizeBlockRange r.newRange⟩]) ∧
    (∀ (r e : WwBlockRange),
      (rangesOverlapOrTouch e.oldRange (normalizeBlockRange r.oldRange) ∨
       rangesOverlapOrTouch e.newRange (normalizeBlockRange r.newRange)) →
      addWwEditRange r [e] =
        [⟨mergeLineRange e.oldRange (normalizeBlockRange r.oldRange),
          mergeLineRange e.newRange (normalizeBlockRange r.newRange)⟩]) ∧
    (∀ (r e : WwBlockRange),
      ¬(rangesOverlapOrTouch e.oldRange (normalizeBlockRange r.oldRange) ∨
        rangesOverlapOrTouch e.newRange (normalizeBlockRange r.newRange)) →
      addWwEditRange r [e] =
        [e, ⟨normalizeBlockRange r.oldRange, normalizeBlockRange r.newRange⟩]) ∧
    (∀ (r : WwBlockRange) (pending : List WwBlockRange) (e : WwBlockRange), e ∈ pending →
      (rangesOverlapOrTouch e.oldRange (normalizeBlockRange r.oldRange) ∨
       rangesOverlapOrTouch e.newRange (normalizeBlockRange r.newRange)) →
      (addWwEditRange r pending).length ≤ pending.length ∧
      ∃ last, (addWwEditRange r pending).getLast? = some last ∧
        coversRange last.oldRange e.oldRange ∧ coversRange last.newRange e.newRange) ∧
    addWwEditRange ⟨⟨3, 5⟩, ⟨3, 5⟩⟩ (addWwEditRange ⟨⟨0, 2⟩, ⟨0, 2⟩⟩ []) =
      [⟨⟨0, 5⟩, ⟨0, 5⟩⟩] := by
  refine ⟨?_, ?_, ?_, ?_, ?_, ?_⟩
  · intro br
    unfold normalizeBlockRange
    simp
  · intro r
    rfl
  · intro r e h
    unfold addWwEditRange
    simp only [List.foldl_cons, List.foldl_nil]
    unfold addWwEditRangeStep
    rw [if_pos h]
    simp
  · intro r e h
    unfold addWwEditRange
    simp only [List.foldl_cons, List.foldl_nil]
    unfold addWwEditRangeStep
    rw [if_neg h]
    simp
  · intro r pending e he htouch
    have habs := foldl_addWwEditRangeStep_absorb pending []
      ⟨normalizeBlockRange r.oldRange, normalizeBlockRange r.newRange⟩ e he htouch
    unfold addWwEditRange
    simp only
    constructor
    · have := habs.1
      simp at this ⊢
      omega
    · refine ⟨(pending.foldl addWwEditRangeStep
        ([], ⟨normalizeBlockRange r.oldRange, normalizeBlockRange r.newRange⟩)).2,
        ?_, habs.2.1, habs.2.2⟩
      rw [List.getLast?_concat]
  · decide

/-- Witness for C7: the singleton merge branch applied to the touching ranges
`[0,2]` and `[3,5]`, discharging its overlap-or-touch hypothesis. -/
theorem addWwEditRange_spec_witness :
    addWwEditRange ⟨⟨3, 5⟩, ⟨3, 5⟩⟩ [⟨⟨0, 2⟩, ⟨0, 2⟩⟩] = [⟨⟨0, 5⟩, ⟨0, 5⟩⟩] := by
  have h := addWwEditRange_spec.2.2.1 ⟨⟨3, 5⟩, ⟨3, 5⟩⟩ ⟨⟨0, 2⟩, ⟨0, 2⟩⟩
    (by decide)
  simpa using h

/-! ### C5: no-op flush on a baseline-equal tree -/

/-- C5. When a flush runs while the structured document is structurally equal
to the stored baseline, no snapshot is pushed, the canonical markdown is
unchanged, the pending edit-range set ends up empty and the dirty flag is
lowered. -/
theorem flush_noop_on_baseline_equal (S : EditorState) (b : Doc)
    (hb : S.wwBaselineDoc = some b) (heq : S.wwDoc = b) :
    S.flushSerializeAndMaybePush.snapshotHistory = S.snapshotHistory ∧
    S.flushSerializeAndMaybePush.canonicalMd = S.canonicalMd ∧
    S.flushSerializeAndMaybePush.pendingWwRanges = [] ∧
    S.flushSerializeAndMaybePush.wwDirty = false := by
  have hnoop : EditorState.baselineNoop S := by
    unfold EditorState.baselineNoop
    rw [hb]
    exact heq
  unfold EditorState.flushSerializeAndMaybePush EditorState.flushSerialize
  by_cases hp : S.pendingWwRanges.isEmpty
  · simp only [hp, if_true, if_pos]
    simp [EditorState.setWwBaseline, List.isEmpty_iff.mp hp]
    split <;> simp [List.isEmpty_iff.mp hp]
  · simp only [hp, if_false, hnoop, if_pos]
    simp [EditorState.setWwBaseline, EditorState.clearPendingWwEdits]
    split <;> simp

/-- Witness for C5: a concrete wysiwyg-mode state whose document equals the
stored baseline. -/
theorem flush_noop_on_baseline_equal_witness :
    (EditorState.flushSerializeAndMaybePush
        { canonicalMd := "a", mode := EditorType.wysiwyg, wwDirty := true,
          pendingWwRanges := [⟨⟨0, 0⟩, ⟨0, 0⟩⟩], wwBaselineDoc := some [["a"]],
          wwSerializeTimer := true, snapshotHistory := ⟨[⟨"a"⟩], []⟩,
          mdText := "a", wwDoc := [["a"]] }).snapshotHistory
      = (⟨[⟨"a"⟩], []⟩ : SnapshotHistory CoreSnapshot) ∧
    (EditorState.flushSerializeAndMaybePush
        { canonicalMd := "a", mode := EditorType.wysiwyg, wwDirty := true,
          pendingWwRanges := [⟨⟨0, 0⟩, ⟨0, 0⟩⟩], wwBaselineDoc := some [["a"]],
          wwSerializeTimer := true, snapshotHistory := ⟨[⟨"a"⟩], []⟩,
          mdText := "a", wwDoc := [["a"]] }).canonicalMd = "a" := by
  have h := flush_noop_on_baseline_equal
    { canonicalMd := "a", mode := EditorType.wysiwyg, wwDirty := true,
      pendingWwRanges := [⟨⟨0, 0⟩, ⟨0, 0⟩⟩], wwBaselineDoc := some [["a"]],
      wwSerializeTimer := true, snapshotHistory := ⟨[⟨"a"⟩], []⟩,
      mdText := "a", wwDoc := [["a"]] } [["a"]] rfl rfl
  exact ⟨h.1, h.2.1⟩

/-! ### C10: reset leaves the snapshot history untouched -/

/-- C10. `reset` empties the canonical markdown, cancels any pending debounce
timer, clears the pending edit-range set, lowers the dirty flag and discards
the baseline, while leaving both history stacks untouched and pushing no
snapshot: the stack depths and the result of a subsequent `undo` are exactly
those of the pre-reset history. -/
theorem reset_preserves_history (S : EditorState) :
    S.reset.snapshotHistory = S.snapshotHistory ∧
    S.reset.snapshotHistory.size = S.snapshotHistory.size ∧
    S.reset.canonicalMd = "" ∧
    S.reset.wwSerializeTimer = false ∧
    S.reset.pendingWwRanges = [] ∧
    S.reset.wwDirty = false ∧
    S.reset.wwBaselineDoc = none ∧
    S.reset.snapshotHistory.undo = S.snapshotHistory.undo := by
  unfold EditorState.reset EditorState.mdChangeEvent EditorState.clearPendingWwEdits
  simp

/-! ### C6: mode-switch round-trip stability -/

/-- C6. Starting from markdown mode, `setMarkdown M` followed by switching to
wysiwyg mode and back to markdown mode with no intervening edits yields
`getMarkdown() = M` exactly, and neither mode switch changes the canonical
markdown. -/
theorem setMarkdown_mode_roundtrip (S : EditorState) (M : String)
    (hmode : S.mode = EditorType.markdown) :
    (((S.setMarkdown M false).changeMode EditorType.wysiwyg).changeMode
        EditorType.markdown).getMarkdown.1 = M ∧
    (S.setMarkdown M false).canonicalMd = M ∧
    ((S.setMarkdown M false).changeMode EditorType.wysiwyg).canonicalMd = M ∧
    (((S.setMarkdown M false).changeMode EditorType.wysiwyg).changeMode
        EditorType.markdown).canonicalMd = M := by
  unfold EditorState.setMarkdown EditorState.changeMode EditorState.getMarkdown
    EditorState.mdChangeEvent EditorState.clearPendingWwEdits
    EditorState.setWwBaseline EditorState.pushSnapshot
  simp [hmode]

/-- Witness for C6: the round-trip evaluated on a concrete two-paragraph
markdown in a concrete markdown-mode state. -/
theorem setMarkdown_mode_roundtrip_witness :
    (((EditorState.setMarkdown
        { canonicalMd := "", mode := EditorType.markdown, wwDirty := false,
          pendingWwRanges := [], wwBaselineDoc := none, wwSerializeTimer := false,
          snapshotHistory := ⟨[⟨""⟩], []⟩, mdText := "", wwDoc := [] }
        "a\n\nb" false).changeMode EditorType.wysiwyg).changeMode
      EditorType.markdown).getMarkdown.1 = "a\n\nb" :=
  (setMarkdown_mode_roundtrip
    { canonicalMd := "", mode := EditorType.markdown, wwDirty := false,
      pendingWwRanges := [], wwBaselineDoc := none, wwSerializeTimer := false,
      snapshotHistory := ⟨[⟨""⟩], []⟩, mdText := "", wwDoc := [] }
    "a\n\nb" rfl).1

/-! ### C2: the wwUserEdit notification path -/

/-- C2 (failing-input evaluation). For every payload constructed at the
`wwUserEdit` emit sites of wwEditor.ts (`{ mdBlockIds, wwRange, hasMissingId }`,
with no `oldRange`/`newRange` fields), the editorCore listener sets the dirty
flag and then faults with a `TypeError` inside `addWwEditRange`
(`normalizeBlockRange` reads `startIndex` of `undefined`): no edit range is
recorded and the debounce timer is never (re)started. -/
theorem wwUserEdit_listener_payload_mismatch (ids : List Int) (r : BlockRange)
    (missing : Bool) (S : EditorState) :
    wwUserEditListener (some (emittedWwUserEditPayload ids r missing)) S =
      Except.error ("TypeError: cannot read startIndex of undefined",
        { S with wwDirty := true }) := rfl

/-- Witness for C3: three pushed snapshots `0, 1, 2`; two undos return `1`
then `0` (the floor). -/
theorem snapshotHistory_stack_law_witness :
    (SnapshotHistory.undoTimes 2
        (SnapshotHistory.pushAll SnapshotHistory.empty [(0 : Nat), 1, 2])).1
      = [some 1, some 0] := by
  have h := snapshotHistory_stack_law [(0 : Nat), 1, 2] (by decide)
  simpa using h.1

/-! ### C8: patch application against original line numbering

The specification-level splice: each patch replaces the 1-based inclusive
line range `[startLine, endLine]` of the original text, all patches
simultaneously. `base` is the original line number of the head of the
remaining line list. -/

/-- Splice a batch of patches, each addressed against the original line
numbering, into a line list whose head holds original line number `base`. -/
def spliceAll : List String → Int → List MdPatch → List String
  | lines, _, [] => lines
  | lines, base, p :: ps =>
    let s := (p.range.startLine - base).toNat
    let d := (p.range.endLine - p.range.startLine + 1).toNat
    lines.take s ++ splitLines p.text ++
      spliceAll (lines.drop (s + d)) (p.range.endLine + 1) ps

/-- The patches form a chain of valid, pairwise-disjoint ranges: each starts
no earlier than `base`, has `startLine <= endLine <= lim`, and the next patch
starts strictly after this one ends. -/
def patchesDisjointFrom (base lim : Int) : List MdPatch → Prop
  | [] => True
  | p :: ps =>
    base ≤ p.range.startLine ∧ p.range.startLine ≤ p.range.endLine ∧
    p.range.endLine ≤ lim ∧ patchesDisjointFrom (p.range.endLine + 1) lim ps

instance patchesDisjointFromDecidable :
    ∀ (base lim : Int) (ps : List MdPatch), Decidable (patchesDisjointFrom base lim ps)
  | _, _, [] => isTrue trivial
  | base, lim, p :: ps => by
    unfold patchesDisjointFrom
    haveI := patchesDisjointFromDecidable (p.range.endLine + 1) lim ps
    infer_instance

theorem jsSplice_in_bounds {α : Type} (l : List α) (start dc : Int) (items : List α)
    (h0 : 0 ≤ start) (h1 : 0 ≤ dc) (h2 : start + dc ≤ (l.length : Int)) :
    jsSplice l start dc items =
      l.take start.toNat ++ items ++ l.drop (start.toNat + dc.toNat) := by
  have hs : jsSpliceStart (l.length : Int) start = start.toNat := by
    unfold jsSpliceStart
    have hn : ¬ start < 0 := by omega
    rw [if_neg hn]
    omega
  have hd : jsSpliceCount l.length start.toNat dc = dc.toNat := by
    unfold jsSpliceCount
    omega
  unfold jsSplice
  rw [hs, hd]

theorem applyMdPatchStep_eq (acc : List String × Int) (p : MdPatch) :
    applyMdPatchStep acc p =
      (jsSplice acc.1 (p.range.startLine - 1 + acc.2)
        (p.range.endLine - 1 + acc.2 - (p.range.startLine - 1 + acc.2) + 1)
        (splitLines p.text),
       acc.2 + ((splitLines p.text).length : Int) -
        (p.range.endLine - 1 + acc.2 - (p.range.startLine - 1 + acc.2) + 1)) := rfl

theorem spliceAll_cons (lines : List String) (base : Int) (p : MdPatch)
    (ps : List MdPatch) :
    spliceAll lines base (p :: ps) =
      lines.take (p.range.startLine - base).toNat ++ splitLines p.text ++
        spliceAll (lines.drop ((p.range.startLine - base).toNat +
          (p.range.endLine - p.range.startLine + 1).toNat)) (p.range.endLine + 1) ps := rfl

theorem foldl_applyMdPatchStep (ps : List MdPatch) :
    ∀ (pre rest : List String) (off base : Int),
    off = (pre.length : Int) - (base - 1) →
    patchesDisjointFrom base (base + (rest.length : Int) - 1) ps →
    (ps.foldl applyMdPatchStep (pre ++ rest, off)).1 = pre ++ spliceAll rest base ps := by
  induction ps with
  | nil =>
    intro pre rest off base _ _
    simp [spliceAll]
  | cons p ps ih =>
    intro pre rest off base hoff hdisj
    obtain ⟨hbase, hse, hlim, hrest⟩ := hdisj
    have hfold : ((p :: ps).foldl applyMdPatchStep (pre ++ rest, off)) =
        ps.foldl applyMdPatchStep (applyMdPatchStep (pre ++ rest, off) p) := rfl
    rw [hfold, applyMdPatchStep_eq]
    simp only
    have hsplice : jsSplice (pre ++ rest) (p.range.startLine - 1 + off)
        (p.range.endLine - 1 + off - (p.range.startLine - 1 + off) + 1)
        (splitLines p.text) =
          (pre ++ rest.take (p.range.startLine - base).toNat ++ splitLines p.text) ++
            rest.drop ((p.range.startLine - base).toNat +
              (p.range.endLine - p.range.startLine + 1).toNat) := by
      rw [jsSplice_in_bounds _ _ _ _ (by omega) (by omega)
        (by simp only [List.length_append]; push_cast; omega)]
      have hstart : (p.range.startLine - 1 + off).toNat =
          pre.length + (p.range.startLine - base).toNat := by omega
      have hdel : (p.range.endLine - 1 + off - (p.range.startLine - 1 + off) + 1).toNat =
          (p.range.endLine - p.range.startLine + 1).toNat := by omega
      rw [hstart, hdel]
      rw [List.take_append_eq_append_take, List.drop_append_eq_append_drop]
      have ht1 : pre.take (pre.length + (p.range.startLine - base).toNat) = pre := by
        apply List.take_of_length_le
        omega
      have ht2 : pre.length + (p.range.startLine - base).toNat - pre.length =
          (p.range.startLine - base).toNat := by omega
      have hd1 : pre.drop (pre.length + (p.range.startLine - base).toNat +
          (p.range.endLine - p.range.startLine + 1).toNat) = [] := by
        apply List.drop_eq_nil_of_le
        omega
      have hd2 : pre.length + (p.range.startLine - base).toNat +
            (p.range.endLine - p.range.startLine + 1).toNat - pre.length =
          (p.range.startLine - base).toNat +
            (p.range.endLine - p.range.startLine + 1).toNat := by omega
      rw [ht1, ht2, hd1, hd2]
      simp [List.append_assoc]
    rw [hsplice]
    have hlen : ((p.range.startLine - base).toNat +
        (p.range.endLine - p.range.startLine + 1).toNat) ≤ rest.length := by
      omega
    have hinv : off + ((splitLines p.text).length : Int) -
          (p.range.endLine - 1 + off - (p.range.startLine - 1 + off) + 1) =
        ((pre ++ rest.take (p.range.startLine - base).toNat ++
          splitLines p.text).length : Int) - ((p.range.endLine + 1) - 1) := by
      simp only [List.length_append, List.length_take]
      push_cast
      omega
    have hlim' : (p.range.endLine + 1) +
          ((rest.drop ((p.range.startLine - base).toNat +
            (p.range.endLine - p.range.startLine + 1).toNat)).length : Int) - 1 =
        base + (rest.length : Int) - 1 := by
      simp only [List.length_drop]
      omega
    have hrest' : patchesDisjointFrom (p.range.endLine + 1)
        ((p.range.endLine + 1) +
          ((rest.drop ((p.range.startLine - base).toNat +
            (p.range.endLine - p.range.startLine + 1).toNat)).length : Int) - 1) ps := by
      rw [hlim']
      exact hrest
    rw [ih (pre ++ rest.take (p.range.startLine - base).toNat ++ splitLines p.text)
      (rest.drop ((p.range.startLine - base).toNat +
        (p.range.endLine - p.range.startLine + 1).toNat))
      (off + ((splitLines p.text).length : Int) -
        (p.range.endLine - 1 + off - (p.range.startLine - 1 + off) + 1))
      (p.range.endLine + 1) hinv hrest']
    rw [spliceAll_cons]
    simp [List.append_assoc]

/-- `applyMdPatches` equals the simultaneous splice of the sorted batch
against the original line numbering, for a sorted batch of valid,
pairwise-disjoint in-bounds line ranges. -/
theorem applyMdPatches_eq_spliceAll (md : String) (patches : List MdPatch)
    (h : patchesDisjointFrom 1 ((splitStr md).length : Int)
      (patches.insertionSort patchLE)) :
    applyMdPatches md patches =
      joinStr (spliceAll (splitStr md) 1 (patches.insertionSort patchLE)) := by
  have hfold := foldl_applyMdPatchStep (patches.insertionSort patchLE)
    [] (splitStr md) 0 1 (by simp)
    (by
      have : (1 : Int) + ((splitStr md).length : Int) - 1 = ((splitStr md).length : Int) := by
        omega
      rw [this]
      exact h)
  simp only [List.nil_append] at hfold
  have hgoal : applyMdPatches md patches =
      (if ((patches.insertionSort patchLE).foldl applyMdPatchStep
            (splitStr md, 0)).1.isEmpty then ""
       else joinStr ((patches.insertionSort patchLE).foldl applyMdPatchStep
            (splitStr md, 0)).1) := rfl
  rw [hgoal, hfold]
  by_cases he : (spliceAll (splitStr md) 1 (patches.insertionSort patchLE)).isEmpty
  · rw [if_pos he]
    rw [List.isEmpty_iff.mp he]
    rfl
  · rw [if_neg he]

/-- C8. `applyMdPatches` applies a batch in ascending `startLine` order; given
that the sorted batch consists of valid, pairwise-disjoint 1-based inclusive
line ranges within the text, the running line-count offset makes the splice of
each patch land exactly on its original (pre-patch) line range: the result
equals the simultaneous splice of all patches against the original numbering. -/
theorem applyMdPatches_ascending_splice (md : String) (patches : List MdPatch)
    (h : patchesDisjointFrom 1 ((splitStr md).length : Int)
      (patches.insertionSort patchLE)) :
    applyMdPatches md patches =
      joinStr (spliceAll (splitStr md) 1 (patches.insertionSort patchLE)) :=
  applyMdPatches_eq_spliceAll md patches h

/-- Witness for C8: two unsorted disjoint patches on a four-line text; the
batch is sorted into ascending order and both patches land on their original
line ranges. -/
theorem applyMdPatches_ascending_splice_witness :
    patchesDisjointFrom 1 ((splitStr "a\nb\nc\nd").length : Int)
      (([⟨⟨3, 3⟩, "X"⟩, ⟨⟨1, 1⟩, "Y\nZ"⟩] : List MdPatch).insertionSort patchLE) ∧
    applyMdPatches "a\nb\nc\nd" [⟨⟨3, 3⟩, "X"⟩, ⟨⟨1, 1⟩, "Y\nZ"⟩] = "Y\nZ\nb\nX\nd" := by
  constructor
  · decide
  · rw [applyMdPatches_ascending_splice "a\nb\nc\nd" [⟨⟨3, 3⟩, "X"⟩, ⟨⟨1, 1⟩, "Y\nZ"⟩]
      (by decide)]
    decide

/-! ### C4: fallback to full serialization on an unresolvable range -/

/-- Counterexample to C4 as stated. In a state whose structured tree has no
top-level children, with canonical markdown `"a\n\nb"` and the single pending
range `{oldRange: [0,0], newRange: [0,5]}`: the `newRange` end index `5` is at
or beyond the child count `0`, so the claim calls it unresolvable and demands
the full serialization `""`; but `serializeWwBlockRange` returns `''` (not
`null`) for an empty document, the patch is applied, and `flushSerialize`
returns `"\nb"`. -/
theorem flushSerialize_empty_doc_counterexample :
    ((5 : Int) ≥ (([] : Doc).length : Int)) ∧
    serializeWwBlockRange ([] : Doc) ⟨0, 5⟩ = some "" ∧
    (EditorState.flushSerialize
        { canonicalMd := "a\n\nb", mode := EditorType.wysiwyg, wwDirty := true,
          pendingWwRanges := [⟨⟨0, 0⟩, ⟨0, 5⟩⟩], wwBaselineDoc := none,
          wwSerializeTimer := false, snapshotHistory := ⟨[], []⟩,
          mdText := "a\n\nb", wwDoc := [] }).2 = "\nb" ∧
    toMarkdownText (([] : Doc)) = "" ∧
    ("\nb" : String) ≠ "" := by
  refine ⟨by decide, by decide, ?_, by decide, by decide⟩
  decide

/-- C4 (amended). During a flush (pending ranges present, tree not
baseline-equal), if any pending range is unresolvable in the code's sense —
its `oldRange` indices run past the top-level blocks of the tree parsed from
the canonical markdown, or its `newRange` is invalid against a structured tree
that has at least one top-level child (start below 0 or end at/beyond the
child count; an empty tree serializes every range to `''` instead) — and no
pending `newRange` is an inverted interval whose start lies at or beyond the
child count of a non-empty tree (on such a range the source's `doc.child`
access itself throws a `RangeError` out of the flush; the pipeline never
produces one, since `addWwEditRange` normalizes every recorded range), then
every patch is abandoned and `flushSerialize` returns the full serialization
of the structured tree, with the pending set cleared, and no error reaches
the caller. -/
theorem flushSerialize_falls_back (S : EditorState)
    (hnoop : ¬ EditorState.baselineNoop S)
    (_hsafe : ∀ p ∈ S.pendingWwRanges, ¬ serializeWwBlockRangeThrows S.wwDoc p.newRange)
    (r : WwBlockRange) (hr : r ∈ S.pendingWwRanges)
    (hunres :
      getBlockLineRangeForIndexRange r.oldRange (parseLineRanges S.canonicalMd) = none ∨
      serializeWwBlockRange S.wwDoc r.newRange = none) :
    S.flushSerialize.2 = toMarkdownText S.wwDoc ∧
    S.flushSerialize.1.pendingWwRanges = [] := by
  have hne : ¬ S.pendingWwRanges.isEmpty := by
    cases hp : S.pendingWwRanges with
    | nil => rw [hp] at hr; simp at hr
    | cons a l => simp
  have hall : EditorState.flushShouldSerializeAll S = true := by
    unfold EditorState.flushShouldSerializeAll EditorState.flushResults
    rw [List.any_eq_true]
    refine ⟨(getBlockLineRangeForIndexRange r.oldRange (parseLineRanges S.canonicalMd),
      serializeWwBlockRange S.wwDoc r.newRange), ?_, ?_⟩
    · rw [List.mem_map]
      refine ⟨r, ?_, rfl⟩
      unfold EditorState.flushSorted
      have hperm := S.pendingWwRanges.perm_insertionSort
        fun a b => a.oldRange.startIndex ≤ b.oldRange.startIndex
      exact hperm.mem_iff.mpr hr
    · rcases hunres with h | h <;> simp [h]
  unfold EditorState.flushSerialize
  rw [if_neg (by simpa using hne), if_neg hnoop, if_pos (by simpa using hall)]
  exact ⟨rfl, rfl⟩

/-- Witness for C4 (amended): a pending `oldRange` of `[5,5]` against a
one-block canonical markdown fails to resolve, its normalized `newRange`
`[0,0]` cannot throw, and the flush falls back to the full serialization
`"x"` of the one-block structured tree. -/
theorem flushSerialize_falls_back_witness :
    (EditorState.flushSerialize
        { canonicalMd := "a", mode := EditorType.wysiwyg, wwDirty := true,
          pendingWwRanges := [⟨⟨5, 5⟩, ⟨0, 0⟩⟩], wwBaselineDoc := none,
          wwSerializeTimer := false, snapshotHistory := ⟨[], []⟩,
          mdText := "a", wwDoc := [["x"]] }).2 = "x" := by
  have h := flushSerialize_falls_back
    { canonicalMd := "a", mode := EditorType.wysiwyg, wwDirty := true,
      pendingWwRanges := [⟨⟨5, 5⟩, ⟨0, 0⟩⟩], wwBaselineDoc := none,
      wwSerializeTimer := false, snapshotHistory := ⟨[], []⟩,
      mdText := "a", wwDoc := [["x"]] }
    (by intro h; exact h) (by decide) ⟨⟨5, 5⟩, ⟨0, 0⟩⟩ (by decide) (by decide)
  rw [h.1]
  decide

/-! ### C1: split/join inversion -/

theorem splitCharList_append_newline (xs : List Char) :
    ∀ t : List Char, '\n' ∉ xs →
    splitCharList (xs ++ '\n' :: t) = xs :: splitCharList t := by
  induction xs with
  | nil =>
    intro t _
    simp [splitCharList]
  | cons c cs ih =>
    intro t h
    have hc : ¬ c = '\n' := by
      intro hc
      exact h (by simp [hc])
    have hcs : '\n' ∉ cs := by
      intro hm
      exact h (by simp [hm])
    have hrec := ih t hcs
    simp only [List.cons_append, splitCharList, if_neg hc, List.append_eq]
    rw [hrec]

theorem splitCharList_no_newline (xs : List Char) (h : '\n' ∉ xs) :
    splitCharList xs = [xs] := by
  induction xs with
  | nil => rfl
  | cons c cs ih =>
    have hc : ¬ c = '\n' := by
      intro hc
      exact h (by simp [hc])
    have hcs : '\n' ∉ cs := by
      intro hm
      exact h (by simp [hm])
    simp only [splitCharList, if_neg hc]
    rw [ih hcs]

theorem splitCharList_intercalate (xss : List (List Char)) :
    xss ≠ [] → (∀ xs ∈ xss, '\n' ∉ xs) →
    splitCharList (List.intercalate ['\n'] xss) = xss := by
  induction xss with
  | nil => intro h _; exact absurd rfl h
  | cons xs rest ih =>
    intro _ h
    cases rest with
    | nil =>
      have hone : List.intercalate ['\n'] [xs] = xs := by
        simp [List.intercalate]
      rw [hone]
      exact splitCharList_no_newline xs (h xs (by simp))
    | cons ys rest' =>
      have hxs : '\n' ∉ xs := h xs (by simp)
      have hstep : List.intercalate ['\n'] (xs :: ys :: rest') =
          xs ++ '\n' :: List.intercalate ['\n'] (ys :: rest') := by
        unfold List.intercalate
        rw [List.intersperse_cons_cons]
        simp
      rw [hstep, splitCharList_append_newline xs _ hxs]
      rw [ih (by simp) (fun zs hzs => h zs (List.mem_cons_of_mem _ hzs))]

theorem mk_data_eq (s : String) : String.mk s.data = s := rfl

theorem splitStr_joinStr (ls : List String) (hne : ls ≠ [])
    (h : ∀ l ∈ ls, noNL l) : splitStr (joinStr ls) = ls := by
  unfold splitStr joinStr
  have hdata : (String.mk (List.intercalate ['\n'] (ls.map String.data))).data =
      List.intercalate ['\n'] (ls.map String.data) := rfl
  rw [hdata]
  rw [splitCharList_intercalate (ls.map String.data) (by simpa using hne)
    (by
      intro xs hxs
      rw [List.mem_map] at hxs
      obtain ⟨l, hl, rfl⟩ := hxs
      exact h l hl)]
  rw [List.map_map]
  have : ((fun cs => String.mk cs) ∘ String.data) = id := by
    funext s
    rfl
  rw [this, List.map_id]

/-! ### C1: document-line decompositions -/

/-- The lines of a serialized block prefix, each block followed by its
separating blank line. -/
def paddedLines : Doc → List String
  | [] => []
  | b :: bs => b ++ "" :: paddedLines bs

/-- The number of serialized lines a block prefix occupies, separators
included: one more than the block's line count, per block. -/
def blockSpan (d : Doc) : Nat :=
  (d.map fun b => b.length + 1).sum

theorem docLines_cons (b : Block) (bs : Doc) (h : bs ≠ []) :
    docLines (b :: bs) = b ++ "" :: docLines bs := by
  unfold docLines
  cases bs with
  | nil => exact absurd rfl h
  | cons c cs =>
    unfold List.intercalate
    rw [List.intersperse_cons_cons]
    simp

theorem docLines_singleton (b : Block) : docLines [b] = b := by
  simp [docLines, List.intercalate]

theorem paddedLines_length (P : Doc) : (paddedLines P).length = blockSpan P := by
  induction P with
  | nil => rfl
  | cons b bs ih =>
    simp [paddedLines, blockSpan] at *
    omega

theorem docLines_append_padded (P Q : Doc) (hQ : Q ≠ []) :
    docLines (P ++ Q) = paddedLines P ++ docLines Q := by
  induction P with
  | nil => simp [paddedLines]
  | cons b P' ih =>
    have hne : P' ++ Q ≠ [] := by
      intro h
      rcases List.append_eq_nil.mp h with ⟨_, h2⟩
      exact hQ h2
    rw [List.cons_append, docLines_cons b (P' ++ Q) hne, ih]
    simp [paddedLines]

theorem docLines_length (M : Doc) (hM : M ≠ []) :
    (docLines M).length + 1 = blockSpan M := by
  induction M with
  | nil => exact absurd rfl hM
  | cons b bs ih =>
    cases bs with
    | nil => simp [docLines_singleton, blockSpan]
    | cons c cs =>
      rw [docLines_cons b (c :: cs) (by simp)]
      have := ih (by simp)
      simp [blockSpan] at *
      omega

theorem docLines_ne_nil (d : Doc) (hd : d ≠ []) (hwf : WFDoc d) :
    docLines d ≠ [] := by
  cases d with
  | nil => exact absurd rfl hd
  | cons b bs =>
    have hb : b ≠ [] := (hwf b (by simp)).1
    cases bs with
    | nil =>
      rw [docLines_singleton]
      exact hb
    | cons c cs =>
      rw [docLines_cons b (c :: cs) (by simp)]
      intro h
      rcases List.append_eq_nil.mp h with ⟨h1, _⟩
      exact hb h1

theorem docLines_noNL (d : Doc) (hwf : WFDoc d) :
    ∀ l ∈ docLines d, noNL l := by
  induction d with
  | nil => intro l hl; simp [docLines, List.intercalate] at hl
  | cons b bs ih =>
    have hb := hwf b (by simp)
    have hwf' : WFDoc bs := fun x hx => hwf x (by simp [hx])
    cases bs with
    | nil =>
      rw [docLines_singleton]
      intro l hl
      exact (hb.2 l hl).2
    | cons c cs =>
      rw [docLines_cons b (c :: cs) (by simp)]
      intro l hl
      rcases List.mem_append.mp hl with h | h
      · exact (hb.2 l h).2
      · rcases List.mem_cons.mp h with rfl | h
        · intro hmem
          simp at hmem
        · exact ih hwf' l h

theorem docLines_nonblank (d : Doc) (hwf : WFDoc d) (hd : d ≠ []) :
    ∃ l ls, docLines d = l :: ls ∧ l ≠ "" := by
  cases d with
  | nil => exact absurd rfl hd
  | cons b bs =>
    have hb := hwf b (by simp)
    obtain ⟨l, ls, hls⟩ := List.exists_cons_of_ne_nil hb.1
    cases bs with
    | nil =>
      rw [docLines_singleton, hls]
      exact ⟨l, ls, rfl, (hb.2 l (by simp [hls])).1⟩
    | cons c cs =>
      rw [docLines_cons b (c :: cs) (by simp), hls]
      exact ⟨l, ls ++ "" :: docLines (c :: cs), by simp,
        (hb.2 l (by simp [hls])).1⟩

/-! ### C1: the parse of a serialized document -/

/-- The line ranges the serialized blocks of a document occupy, the first
block starting at line `n`. -/
def blockRangesOf : Doc → Int → List LineRange
  | [], _ => []
  | b :: bs, n => ⟨n, n + b.length - 1⟩ :: blockRangesOf bs (n + b.length + 1)

theorem lineRunsAux_consume (b : List String) :
    ∀ (rest : List String) (s e n : Int), (∀ l ∈ b, l ≠ "") → b ≠ [] →
    lineRunsAux (b ++ rest) (some (s, e)) n =
      lineRunsAux rest (some (s, n + b.length - 1)) (n + b.length) := by
  induction b with
  | nil => intro rest s e n _ hne; exact absurd rfl hne
  | cons l b' ih =>
    intro rest s e n hnb _
    have hl : ¬ l = "" := hnb l (by simp)
    have hstep : lineRunsAux ((l :: b') ++ rest) (some (s, e)) n =
        lineRunsAux (b' ++ rest) (some (s, n)) (n + 1) := by
      simp only [List.cons_append, lineRunsAux, if_neg hl, List.append_eq]
    rw [hstep]
    by_cases hb' : b' = []
    · subst hb'
      simp only [List.nil_append, List.length_cons, List.length_nil]
      norm_num
    · rw [ih rest s n (n + 1) (fun x hx => hnb x (by simp [hx])) hb']
      have h1 : n + 1 + (b'.length : Int) - 1 = n + ((l :: b').length : Int) - 1 := by
        simp
        omega
      have h2 : n + 1 + (b'.length : Int) = n + ((l :: b').length : Int) := by
        simp
        omega
      rw [h1, h2]

theorem lineRunsAux_open (b : List String) (rest : List String) (n : Int)
    (hnb : ∀ l ∈ b, l ≠ "") (hne : b ≠ []) :
    lineRunsAux (b ++ rest) none n =
      lineRunsAux rest (some (n, n + b.length - 1)) (n + b.length) := by
  cases b with
  | nil => exact absurd rfl hne
  | cons l b' =>
    have hl : ¬ l = "" := hnb l (by simp)
    have hstep : lineRunsAux ((l :: b') ++ rest) none n =
        lineRunsAux (b' ++ rest) (some (n, n)) (n + 1) := by
      simp only [List.cons_append, lineRunsAux, if_neg hl, List.append_eq]
    rw [hstep]
    by_cases hb' : b' = []
    · subst hb'
      simp only [List.nil_append, List.length_cons, List.length_nil]
      norm_num
    · rw [lineRunsAux_consume b' rest n n (n + 1)
        (fun x hx => hnb x (by simp [hx])) hb']
      have h1 : n + 1 + (b'.length : Int) - 1 = n + ((l :: b').length : Int) - 1 := by
        simp
        omega
      have h2 : n + 1 + (b'.length : Int) = n + ((l :: b').length : Int) := by
        simp
        omega
      rw [h1, h2]

theorem lineRunsAux_docLines (doc : Doc) :
    ∀ n : Int, WFDoc doc →
    lineRunsAux (docLines doc) none n = blockRangesOf doc n := by
  induction doc with
  | nil => intro n _; rfl
  | cons b bs ih =>
    intro n hwf
    have hb := hwf b (by simp)
    have hnb : ∀ l ∈ b, l ≠ "" := fun l hl => (hb.2 l hl).1
    have hwf' : WFDoc bs := fun x hx => hwf x (by simp [hx])
    cases bs with
    | nil =>
      rw [docLines_singleton]
      have := lineRunsAux_open b [] n hnb hb.1
      simp only [List.append_nil] at this
      rw [this]
      rfl
    | cons c cs =>
      rw [docLines_cons b (c :: cs) (by simp)]
      rw [lineRunsAux_open b ("" :: docLines (c :: cs)) n hnb hb.1]
      have hblank : lineRunsAux ("" :: docLines (c :: cs))
          (some (n, n + (b.length : Int) - 1)) (n + b.length) =
          ⟨n, n + (b.length : Int) - 1⟩ ::
            lineRunsAux (docLines (c :: cs)) none (n + b.length + 1) := by
        simp [lineRunsAux]
      rw [hblank, ih (n + b.length + 1) hwf']
      rfl

theorem parseLineRanges_toMarkdownText (doc : Doc) (hd : doc ≠ []) (hwf : WFDoc doc) :
    parseLineRanges (toMarkdownText doc) = blockRangesOf doc 1 := by
  unfold parseLineRanges toMarkdownText
  rw [splitStr_joinStr (docLines doc) (docLines_ne_nil doc hd hwf)
    (docLines_noNL doc hwf)]
  exact lineRunsAux_docLines doc 1 hwf

theorem blockRangesOf_length (d : Doc) : ∀ n, (blockRangesOf d n).length = d.length := by
  induction d with
  | nil => intro n; rfl
  | cons b bs ih =>
    intro n
    simp [blockRangesOf, ih]

theorem blockRangesOf_get (d : Doc) :
    ∀ (k : Nat) (n : Int), k < d.length →
    (blockRangesOf d n).get? k =
      some ⟨n + (blockSpan (d.take k) : Int),
            n + (blockSpan (d.take (k + 1)) : Int) - 2⟩ := by
  induction d with
  | nil => intro k n hk; simp at hk
  | cons b bs ih =>
    intro k n hk
    cases k with
    | zero =>
      simp [blockRangesOf, blockSpan]
      omega
    | succ k =>
      have hk' : k < bs.length := by simpa using hk
      have hrec := ih k (n + (b.length : Int) + 1) hk'
      have hstep : (blockRangesOf (b :: bs) n).get? (k + 1) =
          (blockRangesOf bs (n + (b.length : Int) + 1)).get? k := rfl
      rw [hstep, hrec]
      have h1 : n + (b.length : Int) + 1 + (blockSpan (bs.take k) : Int) =
          n + (blockSpan ((b :: bs).take (k + 1)) : Int) := by
        simp [blockSpan]
        omega
      have h2 : n + (b.length : Int) + 1 + (blockSpan (bs.take (k + 1)) : Int) - 2 =
          n + (blockSpan ((b :: bs).take (k + 2)) : Int) - 2 := by
        simp [blockSpan]
        omega
      rw [h1, h2]

/-! ### C1: resolving the old range and serializing the new range -/

theorem blockSpan_append (P Q : Doc) : blockSpan (P ++ Q) = blockSpan P + blockSpan Q := by
  simp [blockSpan]

theorem blockSpan_ge_two (M : Doc) (hM : M ≠ []) (hwf : WFDoc M) : 2 ≤ blockSpan M := by
  cases M with
  | nil => exact absurd rfl hM
  | cons b bs =>
    have hb : b ≠ [] := (hwf b (by simp)).1
    have : 1 ≤ b.length := List.length_pos.mpr hb
    simp [blockSpan]
    omega

/-- Resolving the block-index interval of the edited middle against the parse
of the old document yields exactly the middle's serialized line range. -/
theorem getBlockLineRange_middle (P M S : Doc) (hM : M ≠ [])
    (hwf : WFDoc (P ++ M ++ S)) :
    getBlockLineRangeForIndexRange
      ⟨(P.length : Int), (P.length : Int) + M.length - 1⟩
      (blockRangesOf (P ++ M ++ S) 1) =
    some ⟨1 + (blockSpan P : Int), (blockSpan P : Int) + blockSpan M - 1⟩ := by
  have hMlen : 1 ≤ M.length := List.length_pos.mpr hM
  have hwfM : WFDoc M := fun b hb => hwf b (by simp [hb])
  have hspanM := blockSpan_ge_two M hM hwfM
  have hk1 : P.length < (P ++ M ++ S).length := by simp; omega
  have hk2 : P.length + M.length - 1 < (P ++ M ++ S).length := by simp; omega
  have hstart := blockRangesOf_get (P ++ M ++ S) P.length 1 hk1
  have hend := blockRangesOf_get (P ++ M ++ S) (P.length + M.length - 1) 1 hk2
  have htakeP : (P ++ M ++ S).take P.length = P := by
    rw [List.append_assoc]
    exact List.take_left P (M ++ S)
  have htakePM : (P ++ M ++ S).take (P.length + M.length - 1 + 1) = P ++ M := by
    have h1 : P.length + M.length - 1 + 1 = (P ++ M).length := by simp; omega
    rw [h1]
    exact List.take_left (P ++ M) S
  unfold getBlockLineRangeForIndexRange getMdBlockByIndex
  have hidx1 : (max ((P.length : Int)) 0).toNat = P.length := by omega
  have hidx2 : (max ((P.length : Int) + (M.length : Int) - 1) 0).toNat =
      P.length + M.length - 1 := by omega
  simp only
  rw [hidx1, hidx2, hstart, hend, htakeP, htakePM]
  simp only [Option.some.injEq, LineRange.mk.injEq]
  constructor
  · trivial
  · rw [blockSpan_append]
    push_cast
    omega

/-- Serializing the block-index interval of the new middle against the new
document renders exactly the middle blocks. -/
theorem serializeWwBlockRange_middle (P M' S : Doc) (hM' : M' ≠ []) :
    serializeWwBlockRange (P ++ M' ++ S)
      ⟨(P.length : Int), (P.length : Int) + M'.length - 1⟩ =
    some (toMarkdownText M') := by
  have hMlen : 1 ≤ M'.length := List.length_pos.mpr hM'
  unfold serializeWwBlockRange
  have hlen0 : ¬ (P ++ M' ++ S).length = 0 := by
    simp only [List.length_append]
    omega
  rw [if_neg hlen0]
  have hrange : ¬ ((P.length : Int) < 0 ∨
      (P.length : Int) + (M'.length : Int) - 1 ≥ ((P ++ M' ++ S).length : Int)) := by
    simp
    omega
  rw [if_neg hrange]
  simp only
  have hmax : max ((P.length : Int) + (M'.length : Int) - 1) ((P.length : Int)) =
      (P.length : Int) + (M'.length : Int) - 1 := by omega
  rw [hmax]
  have hdrop : (P ++ M' ++ S).drop ((P.length : Int)).toNat = M' ++ S := by
    have h1 : ((P.length : Int)).toNat = P.length := by omega
    rw [h1, List.append_assoc]
    exact List.drop_left P (M' ++ S)
  rw [hdrop]
  have hcount : ((P.length : Int) + (M'.length : Int) - 1 - (P.length : Int) + 1).toNat =
      M'.length := by omega
  rw [hcount, List.take_left' rfl]
  rw [if_neg (by simpa using hM')]

theorem intercalate_newline_cons_ne_nil (xs : List Char) (xss : List (List Char))
    (hxs : xs ≠ []) : List.intercalate ['\n'] (xs :: xss) ≠ [] := by
  unfold List.intercalate
  cases xss with
  | nil => simpa using hxs
  | cons y t =>
    rw [List.intersperse_cons_cons]
    simp

/-- Joining a line list whose first line is non-empty never yields `''`. -/
theorem joinStr_ne_empty (l : String) (ls : List String) (hl : l ≠ "") :
    joinStr (l :: ls) ≠ "" := by
  intro h
  have hdata : List.intercalate ['\n'] ((l :: ls).map String.data) = [] := by
    have h2 := congrArg String.data h
    simpa [joinStr] using h2
  have hld : l.data ≠ [] := by
    intro hnil
    apply hl
    have : String.mk l.data = String.mk [] := by rw [hnil]
    simpa using this
  exact intercalate_newline_cons_ne_nil l.data (ls.map String.data) hld
    (by simpa using hdata)

/-- `splitLines` applied to the serialization of a non-empty well-formed
document recovers its lines. -/
theorem splitLines_toMarkdownText (M' : Doc) (hM' : M' ≠ []) (hwf : WFDoc M') :
    splitLines (toMarkdownText M') = docLines M' := by
  obtain ⟨l, ls, hls, hl⟩ := docLines_nonblank M' hwf hM'
  unfold splitLines toMarkdownText
  rw [hls]
  rw [if_neg (joinStr_ne_empty l ls hl)]
  have := splitStr_joinStr (docLines M') (docLines_ne_nil M' hM' hwf)
    (docLines_noNL M' hwf)
  rw [hls] at this
  exact this

/-- The serialized lines of a document suffix, preceded by its separating
blank line when non-empty. -/
def sufLines (S : Doc) : List String :=
  if S.isEmpty then [] else "" :: docLines S

theorem docLines_append_suf (M S : Doc) (hM : M ≠ []) :
    docLines (M ++ S) = docLines M ++ sufLines S := by
  induction M with
  | nil => exact absurd rfl hM
  | cons b M' ih =>
    by_cases hM' : M' = []
    · subst hM'
      cases hS : S with
      | nil => simp [hS, docLines_singleton, sufLines]
      | cons c cs =>
        rw [List.singleton_append, docLines_cons b (c :: cs) (by simp),
          docLines_singleton, sufLines]
        simp
    · have hne : M' ++ S ≠ [] := by
        intro h
        exact hM' (List.append_eq_nil.mp h).1
      rw [List.cons_append, docLines_cons b (M' ++ S) hne, ih hM',
        docLines_cons b M' hM']
      simp

/-! ### C1: the incremental flush against full serialization -/

/-- Counterexample to C1 as stated. With canonical markdown `"a\n\nb\n\nc"`
(the serialization of the three-block tree `a, b, c`), current structured tree
`a, b, x` (only the third block edited), and the single pending range
`{oldRange: [0,0], newRange: [0,0]}`: both ranges resolve (nothing is
unresolvable), yet the patched result is the unchanged `"a\n\nb\n\nc"` while
the full serialization of the tree is `"a\n\nb\n\nx"`. -/
theorem flushSerialize_uncovered_range_counterexample :
    getBlockLineRangeForIndexRange ⟨0, 0⟩ (parseLineRanges "a\n\nb\n\nc") =
      some ⟨1, 1⟩ ∧
    serializeWwBlockRange [["a"], ["b"], ["x"]] ⟨0, 0⟩ = some "a" ∧
    (EditorState.flushSerialize
        { canonicalMd := "a\n\nb\n\nc", mode := EditorType.wysiwyg, wwDirty := true,
          pendingWwRanges := [⟨⟨0, 0⟩, ⟨0, 0⟩⟩], wwBaselineDoc := none,
          wwSerializeTimer := false, snapshotHistory := ⟨[], []⟩,
          mdText := "a\n\nb\n\nc", wwDoc := [["a"], ["b"], ["x"]] }).2 =
      "a\n\nb\n\nc" ∧
    toMarkdownText [["a"], ["b"], ["x"]] = "a\n\nb\n\nx" ∧
    ("a\n\nb\n\nc" : String) ≠ "a\n\nb\n\nx" := by
  refine ⟨by decide, by decide, by decide, by decide, by decide⟩

/-- C1 (amended). For a canonical markdown that is the full serialization of
the pre-edit tree and a single contiguous structured edit — one pending
`EditRange` whose `oldRange` delimits the edited blocks of the pre-edit tree
and whose `newRange` delimits their replacements in the current tree, the two
trees agreeing outside (common well-formed prefix `P` and suffix `Suf`, edited
middles `M`/`M'` non-empty), with the baseline absent or equal to the pre-edit
tree — the incremental flush result equals the full serialization of the
current StructuredTree. -/
theorem flushSerialize_single_edit_equiv
    (S : EditorState) (P M M' Suf : Doc)
    (hwf : WFDoc (P ++ M ++ Suf)) (hwf' : WFDoc (P ++ M' ++ Suf))
    (hM : M ≠ []) (hM' : M' ≠ [])
    (hold : S.canonicalMd = toMarkdownText (P ++ M ++ Suf))
    (hnew : S.wwDoc = P ++ M' ++ Suf)
    (hpending : S.pendingWwRanges =
      [⟨⟨(P.length : Int), (P.length : Int) + M.length - 1⟩,
        ⟨(P.length : Int), (P.length : Int) + M'.length - 1⟩⟩])
    (hbase : S.wwBaselineDoc = none ∨ S.wwBaselineDoc = some (P ++ M ++ Suf)) :
    S.flushSerialize.2 = toMarkdownText S.wwDoc := by
  have hPMS_ne : P ++ M ++ Suf ≠ [] := by
    intro h
    rcases List.append_eq_nil.mp h with ⟨h1, _⟩
    exact hM (List.append_eq_nil.mp h1).2
  have hwfM : WFDoc M := fun b hb => hwf b (by simp [hb])
  have hwfM' : WFDoc M' := fun b hb => hwf' b (by simp [hb])
  have hspanM := blockSpan_ge_two M hM hwfM
  have hpne : ¬ S.pendingWwRanges.isEmpty := by
    rw [hpending]
    simp
  by_cases hnoop : EditorState.baselineNoop S
  · rcases hbase with hb | hb
    · exact absurd hnoop (by simp [EditorState.baselineNoop, hb])
    · have heq : S.wwDoc = P ++ M ++ Suf := by
        have := hnoop
        unfold EditorState.baselineNoop at this
        rw [hb] at this
        exact this
      unfold EditorState.flushSerialize
      rw [if_neg (by simpa using hpne), if_pos hnoop]
      simp only
      rw [hold, heq]
  · have hres : EditorState.flushResults S =
        [(some ⟨1 + (blockSpan P : Int), (blockSpan P : Int) + blockSpan M - 1⟩,
          some (toMarkdownText M'))] := by
      unfold EditorState.flushResults EditorState.flushSorted
      rw [hpending]
      have hsort : List.insertionSort
          (fun a b => a.oldRange.startIndex ≤ b.oldRange.startIndex)
          [(⟨⟨(P.length : Int), (P.length : Int) + M.length - 1⟩,
            ⟨(P.length : Int), (P.length : Int) + M'.length - 1⟩⟩ : WwBlockRange)] =
          [⟨⟨(P.length : Int), (P.length : Int) + M.length - 1⟩,
            ⟨(P.length : Int), (P.length : Int) + M'.length - 1⟩⟩] := rfl
      rw [hsort]
      simp only [List.map]
      rw [hold, parseLineRanges_toMarkdownText _ hPMS_ne hwf, hnew]
      rw [getBlockLineRange_middle P M Suf hM hwf,
        serializeWwBlockRange_middle P M' Suf hM']
    have hall : EditorState.flushShouldSerializeAll S = false := by
      unfold EditorState.flushShouldSerializeAll
      rw [hres]
      rfl
    have hpat : EditorState.flushPatches S =
        [⟨⟨1 + (blockSpan P : Int), (blockSpan P : Int) + blockSpan M - 1⟩,
          toMarkdownText M'⟩] := by
      unfold EditorState.flushPatches
      rw [hres]
      rfl
    unfold EditorState.flushSerialize
    rw [if_neg (by simpa using hpne), if_neg hnoop, if_neg (by rw [hall]; simp)]
    simp only
    rw [hpat, hold, hnew]
    -- the patched markdown equals the serialization of the new document
    have hlines : splitStr (toMarkdownText (P ++ M ++ Suf)) = docLines (P ++ M ++ Suf) := by
      unfold toMarkdownText
      exact splitStr_joinStr _ (docLines_ne_nil _ hPMS_ne hwf) (docLines_noNL _ hwf)
    have hlen : (docLines (P ++ M ++ Suf)).length + 1 = blockSpan (P ++ M ++ Suf) :=
      docLines_length _ hPMS_ne
    have hdisj : patchesDisjointFrom 1
        ((splitStr (toMarkdownText (P ++ M ++ Suf))).length : Int)
        (List.insertionSort patchLE
          [(⟨⟨1 + (blockSpan P : Int), (blockSpan P : Int) + blockSpan M - 1⟩,
            toMarkdownText M'⟩ : MdPatch)]) := by
      have hsort : List.insertionSort patchLE
          [(⟨⟨1 + (blockSpan P : Int), (blockSpan P : Int) + blockSpan M - 1⟩,
            toMarkdownText M'⟩ : MdPatch)] =
          [⟨⟨1 + (blockSpan P : Int), (blockSpan P : Int) + blockSpan M - 1⟩,
            toMarkdownText M'⟩] := rfl
      rw [hsort, hlines]
      have e1 : (1 : Int) ≤ 1 + (blockSpan P : Int) := by omega
      have e2 : 1 + (blockSpan P : Int) ≤ (blockSpan P : Int) + blockSpan M - 1 := by
        omega
      have e3 : (blockSpan P : Int) + (blockSpan M : Int) - 1 ≤
          ((docLines (P ++ M ++ Suf)).length : Int) := by
        rw [blockSpan_append, blockSpan_append] at hlen
        omega
      exact ⟨e1, e2, e3, trivial⟩
    rw [applyMdPatches_eq_spliceAll _ _ hdisj]
    have hsort : List.insertionSort patchLE
        [(⟨⟨1 + (blockSpan P : Int), (blockSpan P : Int) + blockSpan M - 1⟩,
          toMarkdownText M'⟩ : MdPatch)] =
        [⟨⟨1 + (blockSpan P : Int), (blockSpan P : Int) + blockSpan M - 1⟩,
          toMarkdownText M'⟩] := rfl
    rw [hsort, hlines]
    -- decompose the old document's lines and splice
    have hMS_ne : M ++ Suf ≠ [] := by
      intro h
      exact hM (List.append_eq_nil.mp h).1
    have hM'S_ne : M' ++ Suf ≠ [] := by
      intro h
      exact hM' (List.append_eq_nil.mp h).1
    have hdecomp : docLines (P ++ M ++ Suf) =
        paddedLines P ++ (docLines M ++ sufLines Suf) := by
      rw [List.append_assoc, docLines_append_padded P (M ++ Suf) hMS_ne,
        docLines_append_suf M Suf hM]
    have hdecomp' : docLines (P ++ M' ++ Suf) =
        paddedLines P ++ (docLines M' ++ sufLines Suf) := by
      rw [List.append_assoc, docLines_append_padded P (M' ++ Suf) hM'S_ne,
        docLines_append_suf M' Suf hM']
    have hsplice : spliceAll (docLines (P ++ M ++ Suf)) 1
        [⟨⟨1 + (blockSpan P : Int), (blockSpan P : Int) + blockSpan M - 1⟩,
          toMarkdownText M'⟩] =
        docLines (P ++ M' ++ Suf) := by
      rw [spliceAll_cons]
      simp only
      have hs : ((1 : Int) + (blockSpan P : Int) - 1).toNat = blockSpan P := by omega
      have hd : (((blockSpan P : Int) + (blockSpan M : Int) - 1) -
          ((1 : Int) + (blockSpan P : Int)) + 1).toNat = blockSpan M - 2 + 1 := by
        omega
      rw [hs, hd, hdecomp, hdecomp']
      have hlenM : (docLines M).length + 1 = blockSpan M := docLines_length M hM
      have htake : (paddedLines P ++ (docLines M ++ sufLines Suf)).take (blockSpan P) =
          paddedLines P := List.take_left' (paddedLines_length P)
      have hdrop : (paddedLines P ++ (docLines M ++ sufLines Suf)).drop
          (blockSpan P + (blockSpan M - 2 + 1)) = sufLines Suf := by
        rw [List.drop_append_eq_append_drop]
        have h1 : (paddedLines P).drop (blockSpan P + (blockSpan M - 2 + 1)) = [] := by
          apply List.drop_eq_nil_of_le
          rw [paddedLines_length]
          omega
        have h2 : blockSpan P + (blockSpan M - 2 + 1) - (paddedLines P).length =
            blockSpan M - 1 := by
          rw [paddedLines_length]
          omega
        rw [h1, h2, List.drop_append_eq_append_drop]
        have h3 : (docLines M).drop (blockSpan M - 1) = [] := by
          apply List.drop_eq_nil_of_le
          omega
        have h4 : blockSpan M - 1 - (docLines M).length = 0 := by omega
        rw [h3, h4]
        simp
      rw [htake, hdrop, splitLines_toMarkdownText M' hM' hwfM']
      have hfin : spliceAll (sufLines Suf)
          ((blockSpan P : Int) + (blockSpan M : Int) - 1 + 1) [] = sufLines Suf := rfl
      rw [hfin]
      simp [List.append_assoc]
    rw [hsplice]
    rfl

/-- Witness for C1 (amended): the spec's concrete scenario — canonical
`"# H\n\npara one\n\npara two"`, the middle paragraph edited to `"para ONE"`,
pending range `{oldRange: [1,1], newRange: [1,1]}`; the flush patches the
canonical markdown into exactly the full serialization of the new tree. -/
theorem flushSerialize_single_edit_equiv_witness :
    (EditorState.flushSerialize
        { canonicalMd := "# H\n\npara one\n\npara two", mode := EditorType.wysiwyg,
          wwDirty := true, pendingWwRanges := [⟨⟨1, 1⟩, ⟨1, 1⟩⟩],
          wwBaselineDoc := none, wwSerializeTimer := false,
          snapshotHistory := ⟨[], []⟩, mdText := "# H\n\npara one\n\npara two",
          wwDoc := [["# H"], ["para ONE"], ["para two"]] }).2 =
      "# H\n\npara ONE\n\npara two" := by
  have h := flushSerialize_single_edit_equiv
    { canonicalMd := "# H\n\npara one\n\npara two", mode := EditorType.wysiwyg,
      wwDirty := true, pendingWwRanges := [⟨⟨1, 1⟩, ⟨1, 1⟩⟩],
      wwBaselineDoc := none, wwSerializeTimer := false,
      snapshotHistory := ⟨[], []⟩, mdText := "# H\n\npara one\n\npara two",
      wwDoc := [["# H"], ["para ONE"], ["para two"]] }
    [["# H"]] [["para one"]] [["para ONE"]] [["para two"]]
    (by decide) (by decide) (by decide) (by decide)
    (by decide) (by decide) (by decide) (Or.inl rfl)
  rw [h]
  decide

end TuiEditor
